import Mathlib

/-!
# Qpid Proton: the AMQP primitive decoding layer (`c/src/core/consumers.h`)

A shallow embedding of the consumer (read cursor) of `consumers.h` and of the
readers built on it, followed by the properties proved about them.

Conventions of the embedding.

* `size_t` values are natural numbers and every `size_t` addition of the source
  is `size_add`, addition modulo `2 ^ 64`.
* A byte pointer is `pn_ptr`: `NULL`, or a byte array together with an offset
  into it.  The memory behind a pointer is never written by this layer.
* A C function `bool f(pni_consumer_t *consumer, T *result)` becomes a function
  from the consumer before the call to a pair: `some r` when the call returns
  `true` and stores `r`, `none` when it returns `false` (the out-parameter is
  not written on those paths), and the consumer after the call.
-/

namespace Proton

/-! ## Machine integers -/

/-- Width in bits of `size_t`. -/
def SIZE_WIDTH : Nat := 64

/-- Largest value of `size_t`. -/
def SIZE_MAX : Nat := 2 ^ SIZE_WIDTH - 1

/-- Largest value of `ptrdiff_t`: no object of the C abstract machine has more bytes. -/
def PTRDIFF_MAX : Nat := 2 ^ (SIZE_WIDTH - 1) - 1

/-- The sum `a + b` computed in `size_t`. -/
def size_add (a b : Nat) : Nat := (a + b) % 2 ^ SIZE_WIDTH

/-! ## AMQP type codes -/

/-- Modelled from the spec: `encodings.h` is not among the sources; the DESCRIPTOR marker of
the AMQP type-encoding assignment, 0x00. -/
def PNE_DESCRIPTOR : Nat := 0x00

/-- Modelled from the spec: `encodings.h` is not among the sources; the ULONG0 marker, 0x44. -/
def PNE_ULONG0 : Nat := 0x44

/-- Modelled from the spec: `encodings.h` is not among the sources; the SMALLULONG marker, 0x53. -/
def PNE_SMALLULONG : Nat := 0x53

/-- Modelled from the spec: `encodings.h` is not among the sources; the ULONG marker, 0x80. -/
def PNE_ULONG : Nat := 0x80

/-! ## Pointers, byte views and the consumer -/

/-- A pointer to bytes: `NULL`, or the byte array it points into and the offset in it. -/
inductive pn_ptr where
  | null : pn_ptr
  | addr (mem : List (Fin 256)) (off : Nat) : pn_ptr
  deriving DecidableEq, Repr

/-- Pointer arithmetic `p + k`. -/
def pn_ptr.add : pn_ptr → Nat → pn_ptr
  | pn_ptr.null, _ => pn_ptr.null
  | pn_ptr.addr mem off, k => pn_ptr.addr mem (off + k)

/-- The byte `p[i]`, as an unsigned number. -/
def pn_ptr.load : pn_ptr → Nat → Nat
  | pn_ptr.null, _ => 0
  | pn_ptr.addr mem off, i => (mem.getD (off + i) 0).val

/-- Modelled from the spec: `proton/types.h` is not among the sources; `pn_bytes_t` is a
(pointer, length) view of bytes that it does not own. -/
structure pn_bytes_t where
  size : Nat
  start : pn_ptr
  deriving DecidableEq, Repr

/-- The bytes a view denotes, first to last. -/
def pn_bytes_t.bytes (b : pn_bytes_t) : List Nat :=
  (List.range b.size).map (fun i => b.start.load i)

/-- The consumer `pni_consumer_t`. -/
structure pni_consumer_t where
  output_start : pn_ptr
  size : Nat
  position : Nat
  deriving DecidableEq, Repr

/-- The byte of the buffer under decode at index `i`, namely `output_start[i]`. -/
def pni_consumer_t.byte (consumer : pni_consumer_t) (i : Nat) : Nat :=
  consumer.output_start.load i

/-- The `make_consumer_from_bytes` constructor. -/
def make_consumer_from_bytes (output_bytes : pn_bytes_t) : pni_consumer_t :=
  { output_start := output_bytes.start
    size := output_bytes.size
    position := 0 }

/-! ## Fixed-width readers -/

/-- The reader `pni_consumer_readf8`. -/
def pni_consumer_readf8 (consumer : pni_consumer_t) : Option Nat × pni_consumer_t :=
  if size_add consumer.position 1 > consumer.size then
    (none, { consumer with position := consumer.size })
  else
    let r := consumer.output_start.load (size_add consumer.position 0)
    (some r, { consumer with position := size_add consumer.position 1 })

/-- The reader `pni_consumer_readf16`; the result is converted to `uint16_t`. -/
def pni_consumer_readf16 (consumer : pni_consumer_t) : Option Nat × pni_consumer_t :=
  if size_add consumer.position 2 > consumer.size then
    (none, { consumer with position := consumer.size })
  else
    let a := consumer.output_start.load (size_add consumer.position 0)
    let b := consumer.output_start.load (size_add consumer.position 1)
    let r := (a <<< 8 ||| b) % 2 ^ 16
    (some r, { consumer with position := size_add consumer.position 2 })

/-- The reader `pni_consumer_readf32`; the shifts are `uint32_t` shifts. -/
def pni_consumer_readf32 (consumer : pni_consumer_t) : Option Nat × pni_consumer_t :=
  if size_add consumer.position 4 > consumer.size then
    (none, { consumer with position := consumer.size })
  else
    let a := consumer.output_start.load (size_add consumer.position 0)
    let b := consumer.output_start.load (size_add consumer.position 1)
    let c := consumer.output_start.load (size_add consumer.position 2)
    let d := consumer.output_start.load (size_add consumer.position 3)
    let r := (a <<< 24) % 2 ^ 32
      ||| (b <<< 16) % 2 ^ 32
      ||| (c <<< 8) % 2 ^ 32
      ||| d
    (some r, { consumer with position := size_add consumer.position 4 })

/-- The reader `pni_consumer_readf64`: two `pni_consumer_readf32` calls. -/
def pni_consumer_readf64 (consumer : pni_consumer_t) : Option Nat × pni_consumer_t :=
  match pni_consumer_readf32 consumer with
  | (none, consumer1) => (none, consumer1)
  | (some a, consumer1) =>
    match pni_consumer_readf32 consumer1 with
    | (none, consumer2) => (none, consumer2)
    | (some b, consumer2) => (some ((a <<< 32) % 2 ^ 64 ||| b), consumer2)

/-- The reader `pni_consumer_readf128`; the result is the 16 bytes `memcpy` stores in `dst`. -/
def pni_consumer_readf128 (consumer : pni_consumer_t) : Option (List Nat) × pni_consumer_t :=
  if size_add consumer.position 16 > consumer.size then (none, consumer)
  else
    let dst := (List.range 16).map
      (fun i => (consumer.output_start.add consumer.position).load i)
    (some dst, { consumer with position := size_add consumer.position 16 })

/-! ## The value-span reader -/

/-- The reader `pni_consumer_read_value_not_described`.  A `break` of the source leaves the
`switch` for the two statements after it, which are `poisoned`. -/
def pni_consumer_read_value_not_described (consumer : pni_consumer_t) (type : Nat) :
    Option pn_bytes_t × pni_consumer_t :=
  let subcategory := type >>> 4
  let poisoned : Option pn_bytes_t × pni_consumer_t :=
    (none, { consumer with position := consumer.size })
  if subcategory = 0x4 then
    (some { size := 0, start := pn_ptr.null }, consumer)
  else if subcategory = 0x5 then
    if size_add consumer.position 1 > consumer.size then poisoned
    else
      (some { size := 1, start := consumer.output_start.add consumer.position },
        { consumer with position := size_add consumer.position 1 })
  else if subcategory = 0x6 then
    if size_add consumer.position 2 > consumer.size then poisoned
    else
      (some { size := 2, start := consumer.output_start.add consumer.position },
        { consumer with position := size_add consumer.position 2 })
  else if subcategory = 0x7 then
    if size_add consumer.position 4 > consumer.size then poisoned
    else
      (some { size := 4, start := consumer.output_start.add consumer.position },
        { consumer with position := size_add consumer.position 4 })
  else if subcategory = 0x8 then
    if size_add consumer.position 8 > consumer.size then poisoned
    else
      (some { size := 8, start := consumer.output_start.add consumer.position },
        { consumer with position := size_add consumer.position 8 })
  else if subcategory = 0x9 then
    if size_add consumer.position 16 > consumer.size then poisoned
    else
      (some { size := 16, start := consumer.output_start.add consumer.position },
        { consumer with position := size_add consumer.position 16 })
  else if subcategory = 0xA ∨ subcategory = 0xC ∨ subcategory = 0xE then
    match pni_consumer_readf8 consumer with
    | (none, consumer1) => (none, consumer1)
    | (some size, consumer1) =>
      if size_add consumer1.position size > consumer1.size then
        (none, { consumer1 with position := consumer1.size })
      else
        (some { size := size, start := consumer1.output_start.add consumer1.position },
          { consumer1 with position := size_add consumer1.position size })
  else if subcategory = 0xB ∨ subcategory = 0xD ∨ subcategory = 0xF then
    match pni_consumer_readf32 consumer with
    | (none, consumer1) => (none, consumer1)
    | (some size, consumer1) =>
      if size_add consumer1.position size > consumer1.size then
        (none, { consumer1 with position := consumer1.size })
      else
        (some { size := size, start := consumer1.output_start.add consumer1.position },
          { consumer1 with position := size_add consumer1.position size })
  else poisoned

/-! ## Compact integers and descriptors -/

/-- The reader `consume_expected_ubyte`: the flag returned and the consumer after the call. -/
def consume_expected_ubyte (consumer : pni_consumer_t) (expected : Nat) :
    Bool × pni_consumer_t :=
  match pni_consumer_readf8 consumer with
  | (none, consumer1) => (false, consumer1)
  | (some e, consumer1) => (decide (e = expected), consumer1)

/-- The reader `consume_ulong`. -/
def consume_ulong (consumer : pni_consumer_t) : Option Nat × pni_consumer_t :=
  match pni_consumer_readf8 consumer with
  | (none, consumer1) => (none, consumer1)
  | (some type, consumer1) =>
    if type = PNE_SMALLULONG then
      match pni_consumer_readf8 consumer1 with
      | (none, consumer2) => (none, consumer2)
      | (some ul, consumer2) => (some ul, consumer2)
    else if type = PNE_ULONG then
      match pni_consumer_readf64 consumer1 with
      | (none, consumer2) => (none, consumer2)
      | (some ul, consumer2) => (some ul, consumer2)
    else if type = PNE_ULONG0 then
      (some 0, consumer1)
    else
      (none, consumer1)

/-- The reader `consume_descriptor`. -/
def consume_descriptor (consumer : pni_consumer_t) : Option Nat × pni_consumer_t :=
  match consume_expected_ubyte consumer PNE_DESCRIPTOR with
  | (false, consumer1) => (none, consumer1)
  | (true, consumer1) => consume_ulong consumer1

/-! ## Values the statements refer to -/

/-- The big-endian unsigned integer of the `n` bytes `buffer[p .. p + n)`:
the sum of `buffer[p + i] * 256 ^ (n - 1 - i)`. -/
def be_uint (consumer : pni_consumer_t) (p n : Nat) : Nat :=
  ((List.range n).map (fun i => consumer.byte (p + i) * 256 ^ (n - 1 - i))).sum

/-- The `n` big-endian bytes of `v`, most significant first. -/
def be_bytes (n v : Nat) : List (Fin 256) :=
  (List.range n).map (fun i => Fin.ofNat (v / 256 ^ (n - 1 - i)))

/-- A fresh consumer over an array of bytes. -/
def consumer_of (mem : List (Fin 256)) : pni_consumer_t :=
  make_consumer_from_bytes { size := mem.length, start := pn_ptr.addr mem 0 }

/-! ## Predicates the statements use -/

/-- The consumer `c1` is over the same buffer as `c`, with its position inside it. -/
def same_buffer_inside (c c1 : pni_consumer_t) : Prop :=
  c1.output_start = c.output_start ∧ c1.size = c.size ∧ c1.position ≤ c.size

/-- The outcome `r` of a reader run on `c` is over the same buffer with its position inside
it, and a failed outcome is poisoned: its position is `c.size`. -/
def poisoning_outcome {α : Type} (c : pni_consumer_t) (r : Option α × pni_consumer_t) : Prop :=
  same_buffer_inside c r.2 ∧ (r.1 = none → r.2.position = c.size)

/-- The span `v` lies inside the buffer of `c`, at or after the index `p`: it starts at
`output_start + off` with `p ≤ off`, and ends at or before `size`. -/
def span_inside (c : pni_consumer_t) (p : Nat) (v : pn_bytes_t) : Prop :=
  ∃ off, v.start = c.output_start.add off ∧ p ≤ off ∧ off + v.size ≤ c.size

/-- The row of the category table for a tag: `pni_consumer_read_value_not_described` on
`c` succeeds whenever `hdr + len` bytes remain, and when it succeeds the span has `len`
bytes and the position has advanced by `hdr + len`. -/
def reads_payload (c : pni_consumer_t) (tag hdr len : Nat) : Prop :=
  (c.position + hdr + len ≤ c.size →
    ∃ v c1, pni_consumer_read_value_not_described c tag = (some v, c1)) ∧
  (∀ v c1, pni_consumer_read_value_not_described c tag = (some v, c1) →
    v.size = len ∧ c1.position = c.position + hdr + len)

/-- The span `v` is the `v.size` bytes of the buffer of `c` from index `off`, and the
consumer `c1` stands at its end: `v` starts at `output_start + off`, its bytes are
`buffer[off .. off + v.size)`, and `off + v.size` is the position of `c1`. -/
def span_at (c : pni_consumer_t) (off : Nat) (v : pn_bytes_t) (c1 : pni_consumer_t) : Prop :=
  v.start = c.output_start.add off ∧
  v.bytes = (List.range v.size).map (fun i => c.byte (off + i)) ∧
  off + v.size = c1.position

/-- The consumer `c1` is over the same buffer as `c`, at or after the position of `c`. -/
def same_buffer_advanced (c c1 : pni_consumer_t) : Prop :=
  c1.output_start = c.output_start ∧ c1.size = c.size ∧ c.position ≤ c1.position

/-- The direct 8-byte reader that `pni_consumer_readf64` is compared with: if 8 bytes remain
it returns the big-endian u64 of `buffer[p .. p + 8)` and sets the position to `p + 8`,
otherwise it fails and sets the position to `size`. -/
def readf64_reference (c : pni_consumer_t) : Option Nat × pni_consumer_t :=
  if c.position + 8 ≤ c.size then
    (some (be_uint c c.position 8), { c with position := c.position + 8 })
  else (none, { c with position := c.size })

/-- A consumer at position `p` over an array of bytes. -/
def consumer_at (mem : List (Fin 256)) (p : Nat) : pni_consumer_t :=
  { consumer_of mem with position := p }

/-- The offset of a pointer in the array it points into; `NULL` has none. -/
def pn_ptr.offset : pn_ptr → Option Nat
  | pn_ptr.null => none
  | pn_ptr.addr _ off => some off

/-- The span `v2` has the offset, the length and the bytes of the span `v`. -/
def same_span (v v2 : pn_bytes_t) : Prop :=
  v2.start.offset = v.start.offset ∧ v2.size = v.size ∧ v2.bytes = v.bytes

/-! ## Arithmetic of the embedding -/

theorem size_add_eq (a b : Nat) (h : a + b ≤ SIZE_MAX) : size_add a b = a + b := by
  simp only [SIZE_MAX, SIZE_WIDTH] at h
  simp only [size_add, SIZE_WIDTH]
  omega

/-- Why the statements below ask for a buffer that is an object: with `size = SIZE_MAX` the
sum `position + 1` of `pni_consumer_readf8` wraps to 0 at the end of the buffer and the
read is let through.  No buffer has `SIZE_MAX` bytes. -/
theorem readf8_at_size_max :
    pni_consumer_readf8 { output_start := pn_ptr.null, size := SIZE_MAX, position := SIZE_MAX }
      = (some 0, { output_start := pn_ptr.null, size := SIZE_MAX, position := 0 }) := by
  decide

theorem load_lt (p : pn_ptr) (i : Nat) : p.load i < 256 := by
  cases p with
  | null => simp [pn_ptr.load]
  | addr mem off => exact (mem.getD (off + i) 0).isLt

theorem load_add (p : pn_ptr) (k i : Nat) : (p.add k).load i = p.load (k + i) := by
  cases p with
  | null => rfl
  | addr mem off => simp [pn_ptr.add, pn_ptr.load, Nat.add_assoc]

theorem byte_lt (c : pni_consumer_t) (i : Nat) : c.byte i < 256 := load_lt _ _

theorem or_eq_add_of_dvd (k x y : Nat) (hx : 2 ^ k ∣ x) (hy : y < 2 ^ k) : x ||| y = x + y := by
  obtain ⟨q, rfl⟩ := hx
  exact (Nat.mul_add_lt_is_or hy q).symm

theorem be16_eq (a b : Nat) (ha : a < 256) (hb : b < 256) :
    (a <<< 8 ||| b) % 2 ^ 16 = a * 256 + b := by
  rw [Nat.shiftLeft_eq, or_eq_add_of_dvd 8 _ _ (Dvd.intro_left _ rfl) (by norm_num; omega)]
  norm_num
  omega

theorem be32_eq (a b c d : Nat) (ha : a < 256) (hb : b < 256) (hc : c < 256) (hd : d < 256) :
    ((a <<< 24) % 2 ^ 32 ||| (b <<< 16) % 2 ^ 32 ||| (c <<< 8) % 2 ^ 32 ||| d)
      = a * 256 ^ 3 + b * 256 ^ 2 + c * 256 + d := by
  have h1 : (a <<< 24) % 2 ^ 32 = a * 2 ^ 24 := by
    rw [Nat.shiftLeft_eq]; norm_num; omega
  have h2 : (b <<< 16) % 2 ^ 32 = b * 2 ^ 16 := by
    rw [Nat.shiftLeft_eq]; norm_num; omega
  have h3 : (c <<< 8) % 2 ^ 32 = c * 2 ^ 8 := by
    rw [Nat.shiftLeft_eq]; norm_num; omega
  rw [h1, h2, h3]
  have e1 : a * 2 ^ 24 ||| b * 2 ^ 16 = a * 2 ^ 24 + b * 2 ^ 16 :=
    or_eq_add_of_dvd 24 _ _ (Dvd.intro_left _ rfl) (by norm_num; omega)
  have e2 : a * 2 ^ 24 + b * 2 ^ 16 ||| c * 2 ^ 8 = a * 2 ^ 24 + b * 2 ^ 16 + c * 2 ^ 8 :=
    or_eq_add_of_dvd 16 _ _ ⟨a * 2 ^ 8 + b, by ring⟩ (by norm_num; omega)
  have e3 : a * 2 ^ 24 + b * 2 ^ 16 + c * 2 ^ 8 ||| d = a * 2 ^ 24 + b * 2 ^ 16 + c * 2 ^ 8 + d :=
    or_eq_add_of_dvd 8 _ _ ⟨a * 2 ^ 16 + b * 2 ^ 8 + c, by ring⟩ (by norm_num; omega)
  rw [e1, e2, e3]
  norm_num

theorem be64_eq (a b : Nat) (ha : a < 2 ^ 32) (hb : b < 2 ^ 32) :
    (a <<< 32) % 2 ^ 64 ||| b = a * 2 ^ 32 + b := by
  have h1 : (a <<< 32) % 2 ^ 64 = a * 2 ^ 32 := by
    rw [Nat.shiftLeft_eq]; norm_num at ha ⊢; omega
  rw [h1, or_eq_add_of_dvd 32 _ _ (Dvd.intro_left _ rfl) hb]

theorem be_uint_one (c : pni_consumer_t) (p : Nat) : be_uint c p 1 = c.byte p := by
  simp [be_uint, List.range_succ]

theorem be_uint_two (c : pni_consumer_t) (p : Nat) :
    be_uint c p 2 = c.byte p * 256 + c.byte (p + 1) := by
  simp [be_uint, List.range_succ]

theorem be_uint_four (c : pni_consumer_t) (p : Nat) :
    be_uint c p 4
      = c.byte p * 256 ^ 3 + c.byte (p + 1) * 256 ^ 2 + c.byte (p + 2) * 256 + c.byte (p + 3) := by
  simp [be_uint, List.range_succ]
  omega

theorem be_uint_eight (c : pni_consumer_t) (p : Nat) :
    be_uint c p 8 = be_uint c p 4 * 2 ^ 32 + be_uint c (p + 4) 4 := by
  simp [be_uint, List.range_succ, Nat.add_assoc]
  omega

theorem be_uint_four_lt (c : pni_consumer_t) (p : Nat) : be_uint c p 4 < 2 ^ 32 := by
  have h0 := byte_lt c p
  have h1 := byte_lt c (p + 1)
  have h2 := byte_lt c (p + 2)
  have h3 := byte_lt c (p + 3)
  rw [be_uint_four]
  norm_num
  omega

/-! ## The readers in exact arithmetic

Where the `size_t` sums of a reader do not wrap, the reader is described by a comparison
of natural numbers.  The sums do not wrap on a consumer whose position is inside its
buffer when the buffer is an object (`size ≤ PTRDIFF_MAX`), nor when the bytes asked for
remain (`position + n ≤ size`, and `size ≤ SIZE_MAX` as of every `size_t`). -/

theorem nowrap_of_object (c : pni_consumer_t) (n : Nat)
    (hp : c.position ≤ c.size) (hs : c.size ≤ PTRDIFF_MAX) (hn : n ≤ 2 ^ 32 + 4) :
    c.position + n ≤ SIZE_MAX := by
  simp only [PTRDIFF_MAX, SIZE_MAX, SIZE_WIDTH] at *
  omega

theorem nowrap_of_remaining (c : pni_consumer_t) (n : Nat)
    (hn : c.position + n ≤ c.size) (hs : c.size ≤ SIZE_MAX) :
    c.position + n ≤ SIZE_MAX := by
  omega

theorem readf8_eq (c : pni_consumer_t) (hw : c.position + 1 ≤ SIZE_MAX) :
    pni_consumer_readf8 c =
      if c.position + 1 ≤ c.size then
        (some (c.byte c.position), { c with position := c.position + 1 })
      else (none, { c with position := c.size }) := by
  have e0 : size_add c.position 0 = c.position := size_add_eq _ _ (by omega)
  have e1 : size_add c.position 1 = c.position + 1 := size_add_eq _ _ (by omega)
  simp only [pni_consumer_readf8, e0, e1, pni_consumer_t.byte]
  split <;> split <;> first | rfl | omega

theorem readf16_eq (c : pni_consumer_t) (hw : c.position + 2 ≤ SIZE_MAX) :
    pni_consumer_readf16 c =
      if c.position + 2 ≤ c.size then
        (some (be_uint c c.position 2), { c with position := c.position + 2 })
      else (none, { c with position := c.size }) := by
  have e0 : size_add c.position 0 = c.position := size_add_eq _ _ (by omega)
  have e1 : size_add c.position 1 = c.position + 1 := size_add_eq _ _ (by omega)
  have e2 : size_add c.position 2 = c.position + 2 := size_add_eq _ _ (by omega)
  simp only [pni_consumer_readf16, e0, e1, e2, be_uint_two, pni_consumer_t.byte]
  rw [be16_eq _ _ (load_lt _ _) (load_lt _ _)]
  split <;> split <;> first | rfl | omega

theorem readf32_eq (c : pni_consumer_t) (hw : c.position + 4 ≤ SIZE_MAX) :
    pni_consumer_readf32 c =
      if c.position + 4 ≤ c.size then
        (some (be_uint c c.position 4), { c with position := c.position + 4 })
      else (none, { c with position := c.size }) := by
  have e0 : size_add c.position 0 = c.position := size_add_eq _ _ (by omega)
  have e1 : size_add c.position 1 = c.position + 1 := size_add_eq _ _ (by omega)
  have e2 : size_add c.position 2 = c.position + 2 := size_add_eq _ _ (by omega)
  have e3 : size_add c.position 3 = c.position + 3 := size_add_eq _ _ (by omega)
  have e4 : size_add c.position 4 = c.position + 4 := size_add_eq _ _ (by omega)
  simp only [pni_consumer_readf32, e0, e1, e2, e3, e4, be_uint_four, pni_consumer_t.byte]
  rw [be32_eq _ _ _ _ (load_lt _ _) (load_lt _ _) (load_lt _ _) (load_lt _ _)]
  split <;> split <;> first | rfl | omega

theorem readf64_eq (c : pni_consumer_t) (hw : c.position + 8 ≤ SIZE_MAX) :
    pni_consumer_readf64 c =
      if c.position + 8 ≤ c.size then
        (some (be_uint c c.position 8), { c with position := c.position + 8 })
      else (none, { c with position := c.size }) := by
  unfold pni_consumer_readf64
  rw [readf32_eq c (by omega)]
  by_cases h4 : c.position + 4 ≤ c.size
  · rw [if_pos h4]
    simp only
    rw [readf32_eq _ (by simpa [Nat.add_assoc] using hw)]
    by_cases h8 : c.position + 8 ≤ c.size
    · have h8a : c.position + 4 + 4 ≤ c.size := by omega
      simp only [if_pos h8, if_pos h8a, be_uint_eight]
      rw [be64_eq _ _ (be_uint_four_lt _ _) (be_uint_four_lt _ _)]
      rfl
    · have h8a : ¬ c.position + 4 + 4 ≤ c.size := by omega
      simp only [if_neg h8, if_neg h8a]
  · have h8 : ¬ c.position + 8 ≤ c.size := by omega
    simp only [if_neg h4, if_neg h8]

/-! ## The value-span reader in exact arithmetic -/

theorem read_value_empty (c : pni_consumer_t) (tag : Nat) (hk : tag >>> 4 = 0x4) :
    pni_consumer_read_value_not_described c tag
      = (some { size := 0, start := pn_ptr.null }, c) := by
  simp [pni_consumer_read_value_not_described, hk]

theorem read_value_invalid (c : pni_consumer_t) (tag : Nat)
    (hk : tag >>> 4 < 0x4 ∨ 0xF < tag >>> 4) :
    pni_consumer_read_value_not_described c tag = (none, { c with position := c.size }) := by
  unfold pni_consumer_read_value_not_described
  simp only
  repeat rw [if_neg (by omega)]

theorem read_value_fixed (c : pni_consumer_t) (tag : Nat)
    (hk : 0x5 ≤ tag >>> 4 ∧ tag >>> 4 ≤ 0x9)
    (hw : c.position + 2 ^ (tag >>> 4 - 5) ≤ SIZE_MAX) :
    pni_consumer_read_value_not_described c tag =
      if c.position + 2 ^ (tag >>> 4 - 5) ≤ c.size then
        (some { size := 2 ^ (tag >>> 4 - 5), start := c.output_start.add c.position },
          { c with position := c.position + 2 ^ (tag >>> 4 - 5) })
      else (none, { c with position := c.size }) := by
  unfold pni_consumer_read_value_not_described
  obtain ⟨h5, h9⟩ := hk
  generalize tag >>> 4 = k at h5 h9 hw
  interval_cases k <;> simp at hw ⊢ <;> rw [size_add_eq _ _ hw] <;>
    split <;> split <;> first | rfl | omega

theorem read_value_short (c : pni_consumer_t) (tag : Nat)
    (hk : tag >>> 4 = 0xA ∨ tag >>> 4 = 0xC ∨ tag >>> 4 = 0xE)
    (hw : c.position + 1 + c.byte c.position ≤ SIZE_MAX) :
    pni_consumer_read_value_not_described c tag =
      if c.position + 1 ≤ c.size ∧ c.position + 1 + c.byte c.position ≤ c.size then
        (some { size := c.byte c.position, start := c.output_start.add (c.position + 1) },
          { c with position := c.position + 1 + c.byte c.position })
      else (none, { c with position := c.size }) := by
  have hsel : pni_consumer_read_value_not_described c tag =
      match pni_consumer_readf8 c with
      | (none, consumer1) => (none, consumer1)
      | (some size, consumer1) =>
        if size_add consumer1.position size > consumer1.size then
          (none, { consumer1 with position := consumer1.size })
        else
          (some { size := size, start := consumer1.output_start.add consumer1.position },
            { consumer1 with position := size_add consumer1.position size }) := by
    unfold pni_consumer_read_value_not_described
    simp only
    rw [if_neg (by omega), if_neg (by omega), if_neg (by omega), if_neg (by omega),
      if_neg (by omega), if_neg (by omega), if_pos hk]
  rw [hsel, readf8_eq c (by omega)]
  by_cases h1 : c.position + 1 ≤ c.size
  · have en : size_add (c.position + 1) (c.byte c.position)
        = c.position + 1 + c.byte c.position := size_add_eq _ _ hw
    simp only [if_pos h1, en]
    split <;> split <;> first | rfl | omega
  · simp only [if_neg h1]
    rw [if_neg (by omega)]

theorem read_value_long (c : pni_consumer_t) (tag : Nat)
    (hk : tag >>> 4 = 0xB ∨ tag >>> 4 = 0xD ∨ tag >>> 4 = 0xF)
    (hw : c.position + 4 + be_uint c c.position 4 ≤ SIZE_MAX) :
    pni_consumer_read_value_not_described c tag =
      if c.position + 4 ≤ c.size ∧ c.position + 4 + be_uint c c.position 4 ≤ c.size then
        (some { size := be_uint c c.position 4, start := c.output_start.add (c.position + 4) },
          { c with position := c.position + 4 + be_uint c c.position 4 })
      else (none, { c with position := c.size }) := by
  have hsel : pni_consumer_read_value_not_described c tag =
      match pni_consumer_readf32 c with
      | (none, consumer1) => (none, consumer1)
      | (some size, consumer1) =>
        if size_add consumer1.position size > consumer1.size then
          (none, { consumer1 with position := consumer1.size })
        else
          (some { size := size, start := consumer1.output_start.add consumer1.position },
            { consumer1 with position := size_add consumer1.position size }) := by
    unfold pni_consumer_read_value_not_described
    simp only
    rw [if_neg (by omega), if_neg (by omega), if_neg (by omega), if_neg (by omega),
      if_neg (by omega), if_neg (by omega), if_neg (by omega), if_pos hk]
  rw [hsel, readf32_eq c (by omega)]
  by_cases h1 : c.position + 4 ≤ c.size
  · have en : size_add (c.position + 4) (be_uint c c.position 4)
        = c.position + 4 + be_uint c c.position 4 := size_add_eq _ _ hw
    simp only [if_pos h1, en]
    split <;> split <;> first | rfl | omega
  · simp only [if_neg h1]
    rw [if_neg (by omega)]

/-! ## What every reader leaves alone, and where it leaves the position

None of these needs a bound on `size`: a reader that succeeds has just checked that the
position it stores is at most `size`. -/

theorem readf8_outcome (c : pni_consumer_t) : poisoning_outcome c (pni_consumer_readf8 c) := by
  unfold pni_consumer_readf8 poisoning_outcome same_buffer_inside
  split
  · simp
  · simp; omega

theorem readf16_outcome (c : pni_consumer_t) : poisoning_outcome c (pni_consumer_readf16 c) := by
  unfold pni_consumer_readf16 poisoning_outcome same_buffer_inside
  split
  · simp
  · simp; omega

theorem readf32_outcome (c : pni_consumer_t) : poisoning_outcome c (pni_consumer_readf32 c) := by
  unfold pni_consumer_readf32 poisoning_outcome same_buffer_inside
  split
  · simp
  · simp; omega

theorem readf64_outcome (c : pni_consumer_t) : poisoning_outcome c (pni_consumer_readf64 c) := by
  have h1 := readf32_outcome c
  unfold pni_consumer_readf64
  rcases e1 : pni_consumer_readf32 c with ⟨_ | a, c1⟩
  · simpa [e1] using h1
  · have h2 := readf32_outcome c1
    rw [e1] at h1
    obtain ⟨⟨hb1, hz1, -⟩, -⟩ := h1
    simp only at hb1 hz1
    simp only
    rcases e2 : pni_consumer_readf32 c1 with ⟨_ | b, c2⟩
    · rw [e2] at h2
      simpa [poisoning_outcome, same_buffer_inside, hb1, hz1] using h2
    · rw [e2] at h2
      simpa [poisoning_outcome, same_buffer_inside, hb1, hz1] using h2.1

theorem readf128_outcome (c : pni_consumer_t) (hp : c.position ≤ c.size) :
    same_buffer_inside c (pni_consumer_readf128 c).2 := by
  unfold pni_consumer_readf128 same_buffer_inside
  split
  · simp [hp]
  · simp; omega

theorem read_value_outcome (c : pni_consumer_t) (tag : Nat) (hp : c.position ≤ c.size) :
    poisoning_outcome c (pni_consumer_read_value_not_described c tag) := by
  have h8 := readf8_outcome c
  have h32 := readf32_outcome c
  unfold pni_consumer_read_value_not_described
  simp only
  split
  · simp [poisoning_outcome, same_buffer_inside, hp]
  iterate 5
    split
    · split
      · simp [poisoning_outcome, same_buffer_inside]
      · simp [poisoning_outcome, same_buffer_inside]; omega
  split
  · rcases e : pni_consumer_readf8 c with ⟨_ | n, c1⟩
    · simpa [e, poisoning_outcome] using h8
    · rw [e] at h8
      obtain ⟨⟨hb1, hz1, -⟩, -⟩ := h8
      simp only at hb1 hz1
      simp only
      split
      · simp [poisoning_outcome, same_buffer_inside, hb1, hz1]
      · simp [poisoning_outcome, same_buffer_inside, hb1, hz1]; omega
  split
  · rcases e : pni_consumer_readf32 c with ⟨_ | n, c1⟩
    · simpa [e, poisoning_outcome] using h32
    · rw [e] at h32
      obtain ⟨⟨hb1, hz1, -⟩, -⟩ := h32
      simp only at hb1 hz1
      simp only
      split
      · simp [poisoning_outcome, same_buffer_inside, hb1, hz1]
      · simp [poisoning_outcome, same_buffer_inside, hb1, hz1]; omega
  · simp [poisoning_outcome, same_buffer_inside]

theorem expected_ubyte_outcome (c : pni_consumer_t) (expected : Nat) :
    same_buffer_inside c (consume_expected_ubyte c expected).2 := by
  have h8 := (readf8_outcome c).1
  unfold consume_expected_ubyte
  rcases e : pni_consumer_readf8 c with ⟨_ | n, c1⟩ <;> simpa [e] using h8

theorem ulong_outcome (c : pni_consumer_t) : same_buffer_inside c (consume_ulong c).2 := by
  have h8 := (readf8_outcome c).1
  unfold consume_ulong
  rcases e : pni_consumer_readf8 c with ⟨_ | n, c1⟩
  · simpa [e] using h8
  · rw [e] at h8
    obtain ⟨hb1, hz1, hp1⟩ := h8
    simp only at hb1 hz1 hp1
    simp only
    split
    · have h := (readf8_outcome c1).1
      rcases e2 : pni_consumer_readf8 c1 with ⟨_ | n2, c2⟩ <;>
        simpa [e2, same_buffer_inside, hb1, hz1] using h
    · split
      · have h := (readf64_outcome c1).1
        rcases e2 : pni_consumer_readf64 c1 with ⟨_ | n2, c2⟩ <;>
          simpa [e2, same_buffer_inside, hb1, hz1] using h
      · split <;> exact ⟨hb1, hz1, hp1⟩

theorem descriptor_outcome (c : pni_consumer_t) :
    same_buffer_inside c (consume_descriptor c).2 := by
  have h1 := expected_ubyte_outcome c PNE_DESCRIPTOR
  unfold consume_descriptor
  rcases e : consume_expected_ubyte c PNE_DESCRIPTOR with ⟨_ | _, c1⟩
  · simpa [e] using h1
  · rw [e] at h1
    obtain ⟨hb1, hz1, -⟩ := h1
    simp only at hb1 hz1
    have h2 := ulong_outcome c1
    simpa [same_buffer_inside, hb1, hz1] using h2

/-! ## The compact-integer and descriptor readers in exact arithmetic -/

theorem byte_with_position (c : pni_consumer_t) (q i : Nat) :
    pni_consumer_t.byte { c with position := q } i = c.byte i := rfl

theorem be_uint_with_position (c : pni_consumer_t) (q p n : Nat) :
    be_uint { c with position := q } p n = be_uint c p n := rfl

theorem expected_ubyte_eq (c : pni_consumer_t) (expected : Nat)
    (hw : c.position + 1 ≤ SIZE_MAX) :
    consume_expected_ubyte c expected =
      if c.position + 1 ≤ c.size then
        (decide (c.byte c.position = expected), { c with position := c.position + 1 })
      else (false, { c with position := c.size }) := by
  unfold consume_expected_ubyte
  rw [readf8_eq c hw]
  by_cases h : c.position + 1 ≤ c.size
  · simp only [if_pos h]
  · simp only [if_neg h]

theorem ulong_zero (c : pni_consumer_t) (h1 : c.position + 1 ≤ c.size)
    (hs : c.size ≤ SIZE_MAX) (hm : c.byte c.position = PNE_ULONG0) :
    consume_ulong c = (some 0, { c with position := c.position + 1 }) := by
  unfold consume_ulong
  rw [readf8_eq c (by omega), if_pos h1]
  simp [hm, PNE_ULONG0, PNE_SMALLULONG, PNE_ULONG]

theorem ulong_small (c : pni_consumer_t) (h2 : c.position + 2 ≤ c.size)
    (hs : c.size ≤ SIZE_MAX) (hm : c.byte c.position = PNE_SMALLULONG) :
    consume_ulong c = (some (c.byte (c.position + 1)), { c with position := c.position + 2 }) := by
  unfold consume_ulong
  rw [readf8_eq c (by omega), if_pos (by omega)]
  simp only [hm, if_true]
  rw [readf8_eq _ (by simp only; omega)]
  simp only [byte_with_position]
  rw [if_pos (by omega)]

theorem ulong_full (c : pni_consumer_t) (h9 : c.position + 9 ≤ c.size)
    (hs : c.size ≤ SIZE_MAX) (hm : c.byte c.position = PNE_ULONG) :
    consume_ulong c =
      (some (be_uint c (c.position + 1) 8), { c with position := c.position + 9 }) := by
  unfold consume_ulong
  rw [readf8_eq c (by omega), if_pos (by omega)]
  simp only [hm]
  rw [if_neg (by decide), if_pos True.intro]
  rw [readf64_eq _ (by simp only; omega)]
  simp only [be_uint_with_position]
  rw [if_pos (by omega)]

theorem ulong_other (c : pni_consumer_t) (h1 : c.position + 1 ≤ c.size)
    (hs : c.size ≤ SIZE_MAX) (hm0 : c.byte c.position ≠ PNE_ULONG0)
    (hm1 : c.byte c.position ≠ PNE_SMALLULONG) (hm8 : c.byte c.position ≠ PNE_ULONG) :
    consume_ulong c = (none, { c with position := c.position + 1 }) := by
  unfold consume_ulong
  rw [readf8_eq c (by omega), if_pos h1]
  simp only
  rw [if_neg hm1, if_neg hm8, if_neg hm0]

theorem descriptor_mismatch (c : pni_consumer_t) (h1 : c.position + 1 ≤ c.size)
    (hs : c.size ≤ SIZE_MAX) (hm : c.byte c.position ≠ PNE_DESCRIPTOR) :
    consume_descriptor c = (none, { c with position := c.position + 1 }) := by
  unfold consume_descriptor
  rw [expected_ubyte_eq c _ (by omega), if_pos h1]
  simp [hm]

theorem descriptor_match (c : pni_consumer_t) (h1 : c.position + 1 ≤ c.size)
    (hs : c.size ≤ SIZE_MAX) (hm : c.byte c.position = PNE_DESCRIPTOR) :
    consume_descriptor c = consume_ulong { c with position := c.position + 1 } := by
  unfold consume_descriptor
  rw [expected_ubyte_eq c _ (by omega), if_pos h1]
  simp [hm]

/-! ## Properties of the decoding layer -/

theorem nibble_cases (tag : Nat) :
    (tag >>> 4 < 0x4 ∨ 0xF < tag >>> 4) ∨ tag >>> 4 = 0x4
      ∨ (0x5 ≤ tag >>> 4 ∧ tag >>> 4 ≤ 0x9)
      ∨ (tag >>> 4 = 0xA ∨ tag >>> 4 = 0xC ∨ tag >>> 4 = 0xE)
      ∨ (tag >>> 4 = 0xB ∨ tag >>> 4 = 0xD ∨ tag >>> 4 = 0xF) := by
  omega

theorem fixed_len_le (k : Nat) (hk : 0x5 ≤ k ∧ k ≤ 0x9) : 2 ^ (k - 5) ≤ 2 ^ 32 + 4 := by
  obtain ⟨h5, h9⟩ := hk
  interval_cases k <;> norm_num

/-- C1. On a consumer with `position ≤ size`, for every tag: a span returned by
`pni_consumer_read_value_not_described` is the empty span when the high nibble is 0x4 and
otherwise lies inside the buffer, starting at or after the position before the call and
ending at or before `size`.  A short-form (0xA, 0xC, 0xE) or long-form (0xB, 0xD, 0xF) read
whose length byte or big-endian 4-byte length declares more bytes than remain after it
fails. -/
theorem C1_value_span_inside_buffer (c : pni_consumer_t) (tag : Nat)
    (hp : c.position ≤ c.size) (hs : c.size ≤ PTRDIFF_MAX) :
    (∀ v c1, pni_consumer_read_value_not_described c tag = (some v, c1) →
      (tag >>> 4 = 0x4 → v.size = 0 ∧ v.start = pn_ptr.null) ∧
      (tag >>> 4 ≠ 0x4 → span_inside c c.position v)) ∧
    ((tag >>> 4 = 0xA ∨ tag >>> 4 = 0xC ∨ tag >>> 4 = 0xE) →
      c.position + 1 ≤ c.size → c.size < c.position + 1 + c.byte c.position →
      (pni_consumer_read_value_not_described c tag).1 = none) ∧
    ((tag >>> 4 = 0xB ∨ tag >>> 4 = 0xD ∨ tag >>> 4 = 0xF) →
      c.position + 4 ≤ c.size → c.size < c.position + 4 + be_uint c c.position 4 →
      (pni_consumer_read_value_not_described c tag).1 = none) := by
  have hb1 := byte_lt c c.position
  have hb4 := be_uint_four_lt c c.position
  have hw1 := nowrap_of_object c (1 + c.byte c.position) hp hs (by norm_num; omega)
  have hw4 := nowrap_of_object c (4 + be_uint c c.position 4) hp hs (by omega)
  rw [← Nat.add_assoc] at hw1 hw4
  refine ⟨?_, ?_, ?_⟩
  · intro v c1 h
    rcases nibble_cases tag with hk | hk | hk | hk | hk
    · rw [read_value_invalid c tag hk] at h
      simp at h
    · rw [read_value_empty c tag hk] at h
      simp only [Prod.mk.injEq, Option.some.injEq] at h
      obtain ⟨rfl, -⟩ := h
      exact ⟨fun _ => ⟨rfl, rfl⟩, fun hne => absurd hk hne⟩
    · rw [read_value_fixed c tag hk (nowrap_of_object c _ hp hs (fixed_len_le _ hk))] at h
      split at h
      · simp only [Prod.mk.injEq, Option.some.injEq] at h
        obtain ⟨rfl, -⟩ := h
        exact ⟨fun h4 => by omega, fun _ => ⟨c.position, rfl, le_refl _, by assumption⟩⟩
      · simp at h
    · rw [read_value_short c tag hk hw1] at h
      split at h
      · simp only [Prod.mk.injEq, Option.some.injEq] at h
        obtain ⟨rfl, -⟩ := h
        exact ⟨fun h4 => by omega, fun _ => ⟨c.position + 1, rfl, by omega, by simp only; omega⟩⟩
      · simp at h
    · rw [read_value_long c tag hk hw4] at h
      split at h
      · simp only [Prod.mk.injEq, Option.some.injEq] at h
        obtain ⟨rfl, -⟩ := h
        exact ⟨fun h4 => by omega, fun _ => ⟨c.position + 4, rfl, by omega, by simp only; omega⟩⟩
      · simp at h
  · intro hk h1 hn
    rw [read_value_short c tag hk hw1, if_neg (by omega)]
  · intro hk h1 hn
    rw [read_value_long c tag hk hw4, if_neg (by omega)]

/-- C1, at the short-form tag 0xA0 over `[2, 7, 9]`: the span is the two bytes after the
length byte. -/
theorem C1_value_span_inside_buffer_witness :
    (consumer_of [2, 7, 9]).position ≤ (consumer_of [2, 7, 9]).size ∧
    (consumer_of [2, 7, 9]).size ≤ PTRDIFF_MAX ∧
    span_inside (consumer_of [2, 7, 9]) 0 { size := 2, start := pn_ptr.addr [2, 7, 9] 1 } :=
  ⟨by decide, by decide,
    ((C1_value_span_inside_buffer (consumer_of [2, 7, 9]) 0xA0 (by decide) (by decide)).1
      { size := 2, start := pn_ptr.addr [2, 7, 9] 1 }
      { consumer_of [2, 7, 9] with position := 3 } (by decide)).2 (by decide)⟩

/-- C2. The predicate `position ≤ size` holds of the consumer `make_consumer_from_bytes`
returns, whose position is 0, and every reader preserves it, on success and on failure:
`pni_consumer_readf8`, `readf16`, `readf32`, `readf64`, `readf128`,
`pni_consumer_read_value_not_described` with any tag, `consume_expected_ubyte` with any
expected byte, `consume_ulong` and `consume_descriptor`. -/
theorem C2_position_le_size_invariant :
    (∀ b : pn_bytes_t, (make_consumer_from_bytes b).position = 0 ∧
      (make_consumer_from_bytes b).position ≤ (make_consumer_from_bytes b).size) ∧
    (∀ c : pni_consumer_t, c.position ≤ c.size →
      (pni_consumer_readf8 c).2.position ≤ (pni_consumer_readf8 c).2.size ∧
      (pni_consumer_readf16 c).2.position ≤ (pni_consumer_readf16 c).2.size ∧
      (pni_consumer_readf32 c).2.position ≤ (pni_consumer_readf32 c).2.size ∧
      (pni_consumer_readf64 c).2.position ≤ (pni_consumer_readf64 c).2.size ∧
      (pni_consumer_readf128 c).2.position ≤ (pni_consumer_readf128 c).2.size ∧
      (∀ tag, (pni_consumer_read_value_not_described c tag).2.position
        ≤ (pni_consumer_read_value_not_described c tag).2.size) ∧
      (∀ expected, (consume_expected_ubyte c expected).2.position
        ≤ (consume_expected_ubyte c expected).2.size) ∧
      (consume_ulong c).2.position ≤ (consume_ulong c).2.size ∧
      (consume_descriptor c).2.position ≤ (consume_descriptor c).2.size) := by
  have key : ∀ c c1 : pni_consumer_t, same_buffer_inside c c1 → c1.position ≤ c1.size := by
    intro c c1 h
    obtain ⟨-, hz, hq⟩ := h
    omega
  refine ⟨fun b => ⟨rfl, Nat.zero_le _⟩, fun c hp => ⟨?_, ?_, ?_, ?_, ?_, ?_, ?_, ?_, ?_⟩⟩
  · exact key c _ (readf8_outcome c).1
  · exact key c _ (readf16_outcome c).1
  · exact key c _ (readf32_outcome c).1
  · exact key c _ (readf64_outcome c).1
  · exact key c _ (readf128_outcome c hp)
  · exact fun tag => key c _ (read_value_outcome c tag hp).1
  · exact fun expected => key c _ (expected_ubyte_outcome c expected)
  · exact key c _ (ulong_outcome c)
  · exact key c _ (descriptor_outcome c)

/-- C2, at a consumer in the middle of `[0, 0x53, 0x42, 7]`: the invariant after
`consume_ulong`. -/
theorem C2_position_le_size_invariant_witness :
    ({ consumer_of [0, 0x53, 0x42, 7] with position := 1 } : pni_consumer_t).position
      ≤ ({ consumer_of [0, 0x53, 0x42, 7] with position := 1 } : pni_consumer_t).size ∧
    (consume_ulong { consumer_of [0, 0x53, 0x42, 7] with position := 1 }).2.position
      ≤ (consume_ulong { consumer_of [0, 0x53, 0x42, 7] with position := 1 }).2.size :=
  ⟨by decide,
    (C2_position_le_size_invariant.2 { consumer_of [0, 0x53, 0x42, 7] with position := 1 }
      (by decide)).2.2.2.2.2.2.2.1⟩

/-- C3. With at least N bytes remaining, for N = 1, 2, 4, 8, the reader
`pni_consumer_readf8`, `readf16`, `readf32`, `readf64` succeeds, returns the big-endian
unsigned integer of the bytes `buffer[p .. p + N)`, the sum of
`buffer[p + i] * 256 ^ (N - 1 - i)`, and leaves the position at `p + N`. -/
theorem C3_fixed_width_big_endian (c : pni_consumer_t) (hs : c.size ≤ SIZE_MAX) :
    (c.position + 1 ≤ c.size → pni_consumer_readf8 c =
      (some (be_uint c c.position 1), { c with position := c.position + 1 })) ∧
    (c.position + 2 ≤ c.size → pni_consumer_readf16 c =
      (some (be_uint c c.position 2), { c with position := c.position + 2 })) ∧
    (c.position + 4 ≤ c.size → pni_consumer_readf32 c =
      (some (be_uint c c.position 4), { c with position := c.position + 4 })) ∧
    (c.position + 8 ≤ c.size → pni_consumer_readf64 c =
      (some (be_uint c c.position 8), { c with position := c.position + 8 })) := by
  refine ⟨fun h => ?_, fun h => ?_, fun h => ?_, fun h => ?_⟩
  · rw [readf8_eq c (by omega), if_pos h, be_uint_one]
  · rw [readf16_eq c (by omega), if_pos h]
  · rw [readf32_eq c (by omega), if_pos h]
  · rw [readf64_eq c (by omega), if_pos h]

/-- C3, on nine bytes read from index 1: the 64-bit value of bytes 1 to 8. -/
theorem C3_fixed_width_big_endian_witness :
    ({ consumer_of [9, 1, 2, 3, 4, 5, 6, 7, 8] with position := 1 } : pni_consumer_t).size
      ≤ SIZE_MAX ∧
    ({ consumer_of [9, 1, 2, 3, 4, 5, 6, 7, 8] with position := 1 } : pni_consumer_t).position
      + 8 ≤ ({ consumer_of [9, 1, 2, 3, 4, 5, 6, 7, 8] with position := 1 } : pni_consumer_t).size ∧
    pni_consumer_readf64 { consumer_of [9, 1, 2, 3, 4, 5, 6, 7, 8] with position := 1 } =
      (some (be_uint { consumer_of [9, 1, 2, 3, 4, 5, 6, 7, 8] with position := 1 } 1 8),
        { consumer_of [9, 1, 2, 3, 4, 5, 6, 7, 8] with position := 1 + 8 }) :=
  ⟨by decide, by decide,
    (C3_fixed_width_big_endian { consumer_of [9, 1, 2, 3, 4, 5, 6, 7, 8] with position := 1 }
      (by decide)).2.2.2 (by decide)⟩

/-- C4. Poisoning.  On a consumer with `position ≤ size`, a failed `pni_consumer_readf8`,
`readf16`, `readf32`, `readf64` or `pni_consumer_read_value_not_described` (any tag) leaves
the position equal to `size`; and on a consumer with `position = size` each of `readf8`,
`readf16`, `readf32` and `readf64` fails and leaves the consumer as it was, its position
still `size`. -/
theorem C4_poisoning (c : pni_consumer_t) (hp : c.position ≤ c.size)
    (hs : c.size ≤ PTRDIFF_MAX) :
    ((pni_consumer_readf8 c).1 = none → (pni_consumer_readf8 c).2.position = c.size) ∧
    ((pni_consumer_readf16 c).1 = none → (pni_consumer_readf16 c).2.position = c.size) ∧
    ((pni_consumer_readf32 c).1 = none → (pni_consumer_readf32 c).2.position = c.size) ∧
    ((pni_consumer_readf64 c).1 = none → (pni_consumer_readf64 c).2.position = c.size) ∧
    (∀ tag, (pni_consumer_read_value_not_described c tag).1 = none →
      (pni_consumer_read_value_not_described c tag).2.position = c.size) ∧
    (c.position = c.size →
      pni_consumer_readf8 c = (none, c) ∧ pni_consumer_readf16 c = (none, c) ∧
      pni_consumer_readf32 c = (none, c) ∧ pni_consumer_readf64 c = (none, c)) := by
  refine ⟨(readf8_outcome c).2, (readf16_outcome c).2, (readf32_outcome c).2,
    (readf64_outcome c).2, fun tag => (read_value_outcome c tag hp).2, fun he => ?_⟩
  have hw := nowrap_of_object c 8 hp hs (by norm_num)
  have hc : ({ c with position := c.size } : pni_consumer_t) = c := by
    cases c
    simp only at he
    simp only [he]
  rw [readf8_eq c (by omega), readf16_eq c (by omega), readf32_eq c (by omega),
    readf64_eq c hw, if_neg (by omega), if_neg (by omega), if_neg (by omega),
    if_neg (by omega), hc]
  exact ⟨rfl, rfl, rfl, rfl⟩

/-- C4, at the exhausted consumer over `[1, 2]`: `pni_consumer_readf16` fails and changes
nothing. -/
theorem C4_poisoning_witness :
    ({ consumer_of [1, 2] with position := 2 } : pni_consumer_t).position
      ≤ ({ consumer_of [1, 2] with position := 2 } : pni_consumer_t).size ∧
    ({ consumer_of [1, 2] with position := 2 } : pni_consumer_t).size ≤ PTRDIFF_MAX ∧
    ({ consumer_of [1, 2] with position := 2 } : pni_consumer_t).position
      = ({ consumer_of [1, 2] with position := 2 } : pni_consumer_t).size ∧
    pni_consumer_readf16 { consumer_of [1, 2] with position := 2 }
      = (none, { consumer_of [1, 2] with position := 2 }) :=
  ⟨by decide, by decide, by decide,
    ((C4_poisoning { consumer_of [1, 2] with position := 2 } (by decide)
      (by decide)).2.2.2.2.2 (by decide)).2.1⟩

theorem be_bytes_value (v : Nat) (hv : v < 2 ^ 64) :
    be_uint (consumer_of (Fin.ofNat PNE_ULONG :: be_bytes 8 v)) 1 8 = v := by
  simp [be_uint, be_bytes, List.range_succ, pni_consumer_t.byte, consumer_of,
    make_consumer_from_bytes, pn_ptr.load, Fin.ofNat]
  norm_num at hv
  omega

/-- C5. Compact-integer round trip: on a fresh consumer, `consume_ulong` succeeds and
returns 0 over `[ULONG0]`, returns `v` over `[SMALLULONG, v]` for every `v` in [0, 255],
and returns `v` over `ULONG` followed by the 8 big-endian bytes of `v` for every 64-bit
`v`. -/
theorem C5_compact_integer_round_trip :
    (consume_ulong (consumer_of [Fin.ofNat PNE_ULONG0])).1 = some 0 ∧
    (∀ v, v ≤ 255 →
      (consume_ulong (consumer_of [Fin.ofNat PNE_SMALLULONG, Fin.ofNat v])).1 = some v) ∧
    (∀ v, v < 2 ^ 64 →
      (consume_ulong (consumer_of (Fin.ofNat PNE_ULONG :: be_bytes 8 v))).1 = some v) := by
  refine ⟨by decide, fun v hv => ?_, fun v hv => ?_⟩
  · rw [ulong_small (consumer_of [Fin.ofNat PNE_SMALLULONG, Fin.ofNat v])
      (by simp [consumer_of, make_consumer_from_bytes])
      (by simp [consumer_of, make_consumer_from_bytes, SIZE_MAX, SIZE_WIDTH]) rfl]
    simp [pni_consumer_t.byte, consumer_of, make_consumer_from_bytes, pn_ptr.load, Fin.ofNat]
    omega
  · rw [ulong_full (consumer_of (Fin.ofNat PNE_ULONG :: be_bytes 8 v))
      (by simp [consumer_of, make_consumer_from_bytes, be_bytes])
      (by simp [consumer_of, make_consumer_from_bytes, be_bytes, SIZE_MAX, SIZE_WIDTH])
      rfl]
    exact congrArg some (be_bytes_value v hv)

/-- C5, at the values 200 and 2 ^ 63 + 5. -/
theorem C5_compact_integer_round_trip_witness :
    (200 ≤ 255 ∧
      (consume_ulong (consumer_of [Fin.ofNat PNE_SMALLULONG, Fin.ofNat 200])).1 = some 200) ∧
    (2 ^ 63 + 5 < 2 ^ 64 ∧
      (consume_ulong (consumer_of (Fin.ofNat PNE_ULONG :: be_bytes 8 (2 ^ 63 + 5)))).1
        = some (2 ^ 63 + 5)) :=
  ⟨⟨by decide, C5_compact_integer_round_trip.2.1 200 (by decide)⟩,
    ⟨by norm_num, C5_compact_integer_round_trip.2.2 (2 ^ 63 + 5) (by norm_num)⟩⟩

theorem reads_payload_of_eq (c : pni_consumer_t) (tag hdr len : Nat) (q : pn_ptr)
    (cond : Prop) [Decidable cond] (hc : c.position + hdr + len ≤ c.size → cond)
    (h : pni_consumer_read_value_not_described c tag =
      if cond then
        (some { size := len, start := q }, { c with position := c.position + hdr + len })
      else (none, { c with position := c.size })) :
    reads_payload c tag hdr len := by
  refine ⟨fun hr => ?_, fun v c1 hv => ?_⟩
  · rw [h, if_pos (hc hr)]
    exact ⟨_, _, rfl⟩
  · rw [h] at hv
    split at hv
    · simp only [Prod.mk.injEq, Option.some.injEq] at hv
      obtain ⟨rfl, rfl⟩ := hv
      exact ⟨rfl, rfl⟩
    · simp at hv

/-- C6. Category table exactness.  On a consumer with position `p ≤ size` and a tag with
high nibble `k`, a successful `pni_consumer_read_value_not_described` returns a span of the
length, and leaves the position, of the table: `k = 0x4`: length 0, position `p`;
`k = 0x5, 0x6, 0x7, 0x8, 0x9`: length 1, 2, 4, 8, 16, position `p + length`;
`k` in 0xA, 0xC, 0xE: length `n = buffer[p]`, position `p + 1 + n`; `k` in 0xB, 0xD, 0xF:
length `n` the big-endian value of `buffer[p .. p + 4)`, position `p + 4 + n`.  The read
succeeds whenever that many bytes remain. -/
theorem C6_category_table (c : pni_consumer_t) (tag : Nat)
    (hp : c.position ≤ c.size) (hs : c.size ≤ PTRDIFF_MAX) :
    (tag >>> 4 = 0x4 → reads_payload c tag 0 0) ∧
    (tag >>> 4 = 0x5 → reads_payload c tag 0 1) ∧
    (tag >>> 4 = 0x6 → reads_payload c tag 0 2) ∧
    (tag >>> 4 = 0x7 → reads_payload c tag 0 4) ∧
    (tag >>> 4 = 0x8 → reads_payload c tag 0 8) ∧
    (tag >>> 4 = 0x9 → reads_payload c tag 0 16) ∧
    (tag >>> 4 = 0xA ∨ tag >>> 4 = 0xC ∨ tag >>> 4 = 0xE →
      reads_payload c tag 1 (c.byte c.position)) ∧
    (tag >>> 4 = 0xB ∨ tag >>> 4 = 0xD ∨ tag >>> 4 = 0xF →
      reads_payload c tag 4 (be_uint c c.position 4)) := by
  have hb1 := byte_lt c c.position
  have hb4 := be_uint_four_lt c c.position
  have hw1 := nowrap_of_object c (1 + c.byte c.position) hp hs (by norm_num; omega)
  have hw4 := nowrap_of_object c (4 + be_uint c c.position 4) hp hs (by omega)
  rw [← Nat.add_assoc] at hw1 hw4
  have fixed : ∀ k, 0x5 ≤ k ∧ k ≤ 0x9 → tag >>> 4 = k → reads_payload c tag 0 (2 ^ (k - 5)) := by
    intro k hk5 hk
    subst hk
    have e := read_value_fixed c tag hk5 (nowrap_of_object c _ hp hs (fixed_len_le _ hk5))
    exact reads_payload_of_eq c tag 0 _ _ _ (fun h => by simpa using h) (by simpa using e)
  refine ⟨fun hk => ?_, fixed 5 (by omega), fixed 6 (by omega), fixed 7 (by omega),
    fixed 8 (by omega), fixed 9 (by omega), fun hk => ?_, fun hk => ?_⟩
  · refine ⟨fun _ => ⟨_, _, read_value_empty c tag hk⟩, fun v c1 hv => ?_⟩
    rw [read_value_empty c tag hk] at hv
    simp only [Prod.mk.injEq, Option.some.injEq] at hv
    obtain ⟨rfl, rfl⟩ := hv
    exact ⟨rfl, rfl⟩
  · exact reads_payload_of_eq c tag 1 _ _ _ (fun h => ⟨by omega, h⟩)
      (read_value_short c tag hk hw1)
  · exact reads_payload_of_eq c tag 4 _ _ _ (fun h => ⟨by omega, h⟩)
      (read_value_long c tag hk hw4)

/-- C6, at the long-form tag 0xB0 over a 4-byte length 2 and two payload bytes. -/
theorem C6_category_table_witness :
    (consumer_of [0, 0, 0, 2, 7, 9]).position ≤ (consumer_of [0, 0, 0, 2, 7, 9]).size ∧
    (consumer_of [0, 0, 0, 2, 7, 9]).size ≤ PTRDIFF_MAX ∧
    (0xB0 >>> 4 = 0xB ∨ 0xB0 >>> 4 = 0xD ∨ 0xB0 >>> 4 = 0xF) ∧
    reads_payload (consumer_of [0, 0, 0, 2, 7, 9]) 0xB0 4
      (be_uint (consumer_of [0, 0, 0, 2, 7, 9]) (consumer_of [0, 0, 0, 2, 7, 9]).position 4) :=
  ⟨by decide, by decide, by decide,
    (C6_category_table (consumer_of [0, 0, 0, 2, 7, 9]) 0xB0 (by decide)
      (by decide)).2.2.2.2.2.2.2 (by decide)⟩

theorem span_at_of_start (c : pni_consumer_t) (off len : Nat) :
    span_at c off { size := len, start := c.output_start.add off }
      { c with position := off + len } := by
  refine ⟨rfl, ?_, rfl⟩
  simp only [pn_bytes_t.bytes, load_add, pni_consumer_t.byte]

/-- C7. Zero-copy span content.  On a consumer with position `p ≤ size` and a tag with
high nibble 0x5 to 0xF, a successful `pni_consumer_read_value_not_described` returns a span
into the buffer of the consumer that starts at offset `p` for a fixed shape, `p + 1` for a
short-form and `p + 4` for a long-form variable shape, whose bytes are the bytes of the
buffer from that offset, and whose end is the new position. -/
theorem C7_zero_copy_span (c : pni_consumer_t) (tag : Nat)
    (hp : c.position ≤ c.size) (hs : c.size ≤ PTRDIFF_MAX)
    (v : pn_bytes_t) (c1 : pni_consumer_t)
    (hv : pni_consumer_read_value_not_described c tag = (some v, c1)) :
    (0x5 ≤ tag >>> 4 ∧ tag >>> 4 ≤ 0x9 → span_at c c.position v c1) ∧
    (tag >>> 4 = 0xA ∨ tag >>> 4 = 0xC ∨ tag >>> 4 = 0xE → span_at c (c.position + 1) v c1) ∧
    (tag >>> 4 = 0xB ∨ tag >>> 4 = 0xD ∨ tag >>> 4 = 0xF → span_at c (c.position + 4) v c1) := by
  have hb1 := byte_lt c c.position
  have hb4 := be_uint_four_lt c c.position
  have hw1 := nowrap_of_object c (1 + c.byte c.position) hp hs (by norm_num; omega)
  have hw4 := nowrap_of_object c (4 + be_uint c c.position 4) hp hs (by omega)
  rw [← Nat.add_assoc] at hw1 hw4
  refine ⟨fun hk => ?_, fun hk => ?_, fun hk => ?_⟩
  · rw [read_value_fixed c tag hk (nowrap_of_object c _ hp hs (fixed_len_le _ hk))] at hv
    split at hv
    · simp only [Prod.mk.injEq, Option.some.injEq] at hv
      obtain ⟨rfl, rfl⟩ := hv
      exact span_at_of_start c _ _
    · simp at hv
  · rw [read_value_short c tag hk hw1] at hv
    split at hv
    · simp only [Prod.mk.injEq, Option.some.injEq] at hv
      obtain ⟨rfl, rfl⟩ := hv
      exact span_at_of_start c _ _
    · simp at hv
  · rw [read_value_long c tag hk hw4] at hv
    split at hv
    · simp only [Prod.mk.injEq, Option.some.injEq] at hv
      obtain ⟨rfl, rfl⟩ := hv
      exact span_at_of_start c _ _
    · simp at hv

/-- C7, at the short-form tag 0xA0 read from index 1 of `[5, 2, 7, 9, 4]`: the span is the
bytes 7, 9 at offset 2. -/
theorem C7_zero_copy_span_witness :
    ({ consumer_of [5, 2, 7, 9, 4] with position := 1 } : pni_consumer_t).position
      ≤ ({ consumer_of [5, 2, 7, 9, 4] with position := 1 } : pni_consumer_t).size ∧
    ({ consumer_of [5, 2, 7, 9, 4] with position := 1 } : pni_consumer_t).size ≤ PTRDIFF_MAX ∧
    pni_consumer_read_value_not_described { consumer_of [5, 2, 7, 9, 4] with position := 1 } 0xA0
      = (some { size := 2, start := pn_ptr.addr [5, 2, 7, 9, 4] 2 },
          { consumer_of [5, 2, 7, 9, 4] with position := 4 }) ∧
    span_at { consumer_of [5, 2, 7, 9, 4] with position := 1 } (1 + 1)
      { size := 2, start := pn_ptr.addr [5, 2, 7, 9, 4] 2 }
      { consumer_of [5, 2, 7, 9, 4] with position := 4 } :=
  ⟨by decide, by decide, by decide,
    (C7_zero_copy_span { consumer_of [5, 2, 7, 9, 4] with position := 1 } 0xA0 (by decide)
      (by decide) { size := 2, start := pn_ptr.addr [5, 2, 7, 9, 4] 2 }
      { consumer_of [5, 2, 7, 9, 4] with position := 4 } (by decide)).2.1 (by decide)⟩

/-- C8. Descriptor happy path.  When the buffer holds, at the position `p` of the consumer,
the DESCRIPTOR marker followed by a compact encoding of a value, `consume_descriptor`
succeeds, returns the value and advances the position past the encoding: ULONG0 gives 0
and position `p + 2`; SMALLULONG and one byte give that byte and `p + 3`; ULONG and eight
bytes give their big-endian value and `p + 10`.  A fresh consumer over
`[0x00, 0x53, 0x42]` returns 66 with position = size = 3. -/
theorem C8_descriptor_happy_path :
    (∀ c : pni_consumer_t, c.size ≤ SIZE_MAX → c.byte c.position = PNE_DESCRIPTOR →
      (c.position + 2 ≤ c.size → c.byte (c.position + 1) = PNE_ULONG0 →
        consume_descriptor c = (some 0, { c with position := c.position + 2 })) ∧
      (c.position + 3 ≤ c.size → c.byte (c.position + 1) = PNE_SMALLULONG →
        consume_descriptor c =
          (some (c.byte (c.position + 2)), { c with position := c.position + 3 })) ∧
      (c.position + 10 ≤ c.size → c.byte (c.position + 1) = PNE_ULONG →
        consume_descriptor c =
          (some (be_uint c (c.position + 2) 8), { c with position := c.position + 10 }))) ∧
    (consume_descriptor (consumer_of [0x00, 0x53, 0x42])).1 = some 66 ∧
    (consume_descriptor (consumer_of [0x00, 0x53, 0x42])).2.position = 3 ∧
    (consume_descriptor (consumer_of [0x00, 0x53, 0x42])).2.size = 3 := by
  refine ⟨fun c hs hm => ⟨fun h hb => ?_, fun h hb => ?_, fun h hb => ?_⟩,
    by decide, by decide, by decide⟩
  · rw [descriptor_match c (by omega) hs hm,
      ulong_zero { c with position := c.position + 1 } (by simp only; omega) hs hb]
  · rw [descriptor_match c (by omega) hs hm,
      ulong_small { c with position := c.position + 1 } (by simp only; omega) hs hb]
    rfl
  · rw [descriptor_match c (by omega) hs hm,
      ulong_full { c with position := c.position + 1 } (by simp only; omega) hs hb]
    rfl

/-- C8, at a fresh consumer over `[0x00, 0x53, 0x42]`. -/
theorem C8_descriptor_happy_path_witness :
    (consumer_of [0x00, 0x53, 0x42]).size ≤ SIZE_MAX ∧
    (consumer_of [0x00, 0x53, 0x42]).byte (consumer_of [0x00, 0x53, 0x42]).position
      = PNE_DESCRIPTOR ∧
    (consumer_of [0x00, 0x53, 0x42]).position + 3 ≤ (consumer_of [0x00, 0x53, 0x42]).size ∧
    (consumer_of [0x00, 0x53, 0x42]).byte ((consumer_of [0x00, 0x53, 0x42]).position + 1)
      = PNE_SMALLULONG ∧
    consume_descriptor (consumer_of [0x00, 0x53, 0x42]) =
      (some ((consumer_of [0x00, 0x53, 0x42]).byte
          ((consumer_of [0x00, 0x53, 0x42]).position + 2)),
        { consumer_of [0x00, 0x53, 0x42] with
          position := (consumer_of [0x00, 0x53, 0x42]).position + 3 }) :=
  ⟨by decide, by decide, by decide, by decide,
    (C8_descriptor_happy_path.1 (consumer_of [0x00, 0x53, 0x42]) (by decide) (by decide)).2.1
      (by decide) (by decide)⟩

/-- C9. Descriptor mismatch.  When a byte remains at the position `p` of the consumer and
it is not the DESCRIPTOR marker, `consume_descriptor`, and `consume_expected_ubyte` with
the DESCRIPTOR marker expected, fail having consumed that one byte: the final position is
`p + 1`; it is not forced to `size`, and stays below `size` when more bytes follow. -/
theorem C9_descriptor_mismatch (c : pni_consumer_t) (hp : c.position < c.size)
    (hs : c.size ≤ SIZE_MAX) (hm : c.byte c.position ≠ PNE_DESCRIPTOR) :
    consume_descriptor c = (none, { c with position := c.position + 1 }) ∧
    consume_expected_ubyte c PNE_DESCRIPTOR = (false, { c with position := c.position + 1 }) ∧
    (c.position + 1 < c.size →
      (consume_descriptor c).2.position < c.size ∧
      (consume_expected_ubyte c PNE_DESCRIPTOR).2.position < c.size) := by
  have hd := descriptor_mismatch c (by omega) hs hm
  have he : consume_expected_ubyte c PNE_DESCRIPTOR
      = (false, { c with position := c.position + 1 }) := by
    rw [expected_ubyte_eq c _ (by omega), if_pos (by omega)]
    simp [hm]
  refine ⟨hd, he, fun h => ?_⟩
  rw [hd, he]
  exact ⟨h, h⟩

/-- C9, at a fresh consumer over `[0xFF, 0x53, 0x42]`: only the byte 0xFF is consumed. -/
theorem C9_descriptor_mismatch_witness :
    (consumer_of [0xFF, 0x53, 0x42]).position < (consumer_of [0xFF, 0x53, 0x42]).size ∧
    (consumer_of [0xFF, 0x53, 0x42]).size ≤ SIZE_MAX ∧
    (consumer_of [0xFF, 0x53, 0x42]).byte (consumer_of [0xFF, 0x53, 0x42]).position
      ≠ PNE_DESCRIPTOR ∧
    consume_descriptor (consumer_of [0xFF, 0x53, 0x42])
      = (none, { consumer_of [0xFF, 0x53, 0x42] with
          position := (consumer_of [0xFF, 0x53, 0x42]).position + 1 }) :=
  ⟨by decide, by decide, by decide,
    (C9_descriptor_mismatch (consumer_of [0xFF, 0x53, 0x42]) (by decide) (by decide)
      (by decide)).1⟩

/-- C10. Truncated u64.  With at least 4 but fewer than 8 bytes remaining at position `p`,
`pni_consumer_readf64` fails: its first `pni_consumer_readf32` consumes the leading 4 bytes
as a complete u32, its second fails and poisons the consumer, and the final position is
`size`.  A fresh consumer over `[0x00, 0x00, 0x00, 0x01]` fails with position = 4 = size. -/
theorem C10_truncated_u64 :
    (∀ c : pni_consumer_t, c.size ≤ PTRDIFF_MAX →
      c.position + 4 ≤ c.size → c.size < c.position + 8 →
      pni_consumer_readf32 c
        = (some (be_uint c c.position 4), { c with position := c.position + 4 }) ∧
      pni_consumer_readf32 { c with position := c.position + 4 }
        = (none, { c with position := c.size }) ∧
      pni_consumer_readf64 c = (none, { c with position := c.size })) ∧
    (pni_consumer_readf64 (consumer_of [0x00, 0x00, 0x00, 0x01])).1 = none ∧
    (pni_consumer_readf64 (consumer_of [0x00, 0x00, 0x00, 0x01])).2.position = 4 ∧
    (pni_consumer_readf64 (consumer_of [0x00, 0x00, 0x00, 0x01])).2.size = 4 := by
  refine ⟨fun c hs h4 h8 => ?_, by decide, by decide, by decide⟩
  have hw := nowrap_of_object c 8 (by omega) hs (by norm_num)
  refine ⟨?_, ?_, ?_⟩
  · rw [readf32_eq c (by omega), if_pos h4]
  · rw [readf32_eq _ (by simp only; omega)]
    simp only
    rw [if_neg (by omega)]
  · rw [readf64_eq c hw, if_neg (by omega)]

/-- C10, at a consumer with 5 bytes remaining. -/
theorem C10_truncated_u64_witness :
    ({ consumer_of [9, 0, 0, 0, 1, 2] with position := 1 } : pni_consumer_t).size
      ≤ PTRDIFF_MAX ∧
    ({ consumer_of [9, 0, 0, 0, 1, 2] with position := 1 } : pni_consumer_t).position + 4
      ≤ ({ consumer_of [9, 0, 0, 0, 1, 2] with position := 1 } : pni_consumer_t).size ∧
    ({ consumer_of [9, 0, 0, 0, 1, 2] with position := 1 } : pni_consumer_t).size
      < ({ consumer_of [9, 0, 0, 0, 1, 2] with position := 1 } : pni_consumer_t).position + 8 ∧
    pni_consumer_readf64 { consumer_of [9, 0, 0, 0, 1, 2] with position := 1 }
      = (none, { consumer_of [9, 0, 0, 0, 1, 2] with position := 6 }) :=
  ⟨by decide, by decide, by decide,
    (C10_truncated_u64.1 { consumer_of [9, 0, 0, 0, 1, 2] with position := 1 } (by decide)
      (by decide) (by decide)).2.2⟩

/-! ## More of the readers in exact arithmetic -/

theorem readf128_eq (c : pni_consumer_t) (hw : c.position + 16 ≤ SIZE_MAX) :
    pni_consumer_readf128 c =
      if c.position + 16 ≤ c.size then
        (some ((List.range 16).map (fun i => c.byte (c.position + i))),
          { c with position := c.position + 16 })
      else (none, c) := by
  simp only [pni_consumer_readf128, size_add_eq _ _ hw, load_add, pni_consumer_t.byte]
  split <;> split <;> first | rfl | omega

theorem ulong_eq (c : pni_consumer_t) (hw : c.position + 9 ≤ SIZE_MAX) :
    consume_ulong c =
      if c.position + 1 ≤ c.size then
        if c.byte c.position = PNE_SMALLULONG then
          if c.position + 2 ≤ c.size then
            (some (c.byte (c.position + 1)), { c with position := c.position + 2 })
          else (none, { c with position := c.size })
        else if c.byte c.position = PNE_ULONG then
          if c.position + 9 ≤ c.size then
            (some (be_uint c (c.position + 1) 8), { c with position := c.position + 9 })
          else (none, { c with position := c.size })
        else if c.byte c.position = PNE_ULONG0 then
          (some 0, { c with position := c.position + 1 })
        else (none, { c with position := c.position + 1 })
      else (none, { c with position := c.size }) := by
  unfold consume_ulong
  rw [readf8_eq c (by omega)]
  by_cases h1 : c.position + 1 ≤ c.size
  · simp only [if_pos h1]
    by_cases hm1 : c.byte c.position = PNE_SMALLULONG
    · simp only [if_pos hm1]
      rw [readf8_eq _ (by simp only; omega)]
      simp only [byte_with_position]
      by_cases h2 : c.position + 2 ≤ c.size
      · rw [if_pos (by omega)]
      · rw [if_neg (by omega)]
    · simp only [if_neg hm1]
      by_cases hm8 : c.byte c.position = PNE_ULONG
      · simp only [if_pos hm8]
        rw [readf64_eq _ (by simp only; omega)]
        simp only [be_uint_with_position]
        by_cases h9 : c.position + 9 ≤ c.size
        · rw [if_pos (by omega)]
        · rw [if_neg (by omega)]
      · simp only [if_neg hm8]
  · simp only [if_neg h1]

theorem descriptor_eq (c : pni_consumer_t) (hw : c.position + 1 ≤ SIZE_MAX) :
    consume_descriptor c =
      if c.position + 1 ≤ c.size then
        if c.byte c.position = PNE_DESCRIPTOR then
          consume_ulong { c with position := c.position + 1 }
        else (none, { c with position := c.position + 1 })
      else (none, { c with position := c.size }) := by
  unfold consume_descriptor
  rw [expected_ubyte_eq c _ hw]
  by_cases h1 : c.position + 1 ≤ c.size
  · by_cases hm : c.byte c.position = PNE_DESCRIPTOR <;> simp [h1, hm]
  · simp [h1]

/-- C11. 16-byte raw read.  On a consumer with position `p ≤ size`, `pni_consumer_readf128`
succeeds exactly when at least 16 bytes remain; on success the destination holds
`buffer[p .. p + 16)` in order and the position is `p + 16`; on failure the consumer is
left as it was, its position still `p`. -/
theorem C11_raw16_read (c : pni_consumer_t) (hp : c.position ≤ c.size)
    (hs : c.size ≤ PTRDIFF_MAX) :
    ((pni_consumer_readf128 c).1 ≠ none ↔ c.position + 16 ≤ c.size) ∧
    (c.position + 16 ≤ c.size →
      pni_consumer_readf128 c =
        (some ((List.range 16).map (fun i => c.byte (c.position + i))),
          { c with position := c.position + 16 })) ∧
    ((pni_consumer_readf128 c).1 = none → pni_consumer_readf128 c = (none, c)) := by
  rw [readf128_eq c (nowrap_of_object c 16 hp hs (by norm_num))]
  by_cases h : c.position + 16 ≤ c.size
  · simp [h]
  · simp [h]

/-- C11, at a consumer with 3 bytes remaining: the read fails and the position stays 1. -/
theorem C11_raw16_read_witness :
    (consumer_at [1, 2, 3, 4] 1).position ≤ (consumer_at [1, 2, 3, 4] 1).size ∧
    (consumer_at [1, 2, 3, 4] 1).size ≤ PTRDIFF_MAX ∧
    (pni_consumer_readf128 (consumer_at [1, 2, 3, 4] 1)).1 = none ∧
    pni_consumer_readf128 (consumer_at [1, 2, 3, 4] 1) = (none, consumer_at [1, 2, 3, 4] 1) :=
  ⟨by decide, by decide, by decide,
    (C11_raw16_read (consumer_at [1, 2, 3, 4] 1) (by decide) (by decide)).2.2 (by decide)⟩

/-- C12, as stated, fails: a short-form read over `[5, 1]` whose length byte declares 5
bytes where 1 remains, and a long-form read over `[1, 2]` whose 4-byte length cannot be
read, both fail with the position moved from 0 to `size` = 2. -/
theorem C12_variable_width_failure_counterexample :
    ((pni_consumer_read_value_not_described (consumer_of [5, 1]) 0xA0).1 = none ∧
      (pni_consumer_read_value_not_described (consumer_of [5, 1]) 0xA0).2.position
        ≠ (consumer_of [5, 1]).position) ∧
    ((pni_consumer_read_value_not_described (consumer_of [1, 2]) 0xB0).1 = none ∧
      (pni_consumer_read_value_not_described (consumer_of [1, 2]) 0xB0).2.position
        ≠ (consumer_of [1, 2]).position) := by
  decide

/-- C12, amended.  On a consumer with `position ≤ size` and a tag with high nibble in
0xA to 0xF, a failed `pni_consumer_read_value_not_described`, whether the length could not
be read or declares more bytes than remain, poisons the consumer: its position is `size`
afterwards. -/
theorem C12_variable_width_failure_poisons (c : pni_consumer_t) (tag : Nat)
    (hp : c.position ≤ c.size) :
    0xA ≤ tag >>> 4 ∧ tag >>> 4 ≤ 0xF →
    (pni_consumer_read_value_not_described c tag).1 = none →
    (pni_consumer_read_value_not_described c tag).2.position = c.size :=
  fun _ hf => (read_value_outcome c tag hp).2 hf

/-- C12 amended, at the short-form read over `[5, 1]`. -/
theorem C12_variable_width_failure_poisons_witness :
    (consumer_of [5, 1]).position ≤ (consumer_of [5, 1]).size ∧
    (0xA ≤ 0xA0 >>> 4 ∧ 0xA0 >>> 4 ≤ 0xF) ∧
    (pni_consumer_read_value_not_described (consumer_of [5, 1]) 0xA0).1 = none ∧
    (pni_consumer_read_value_not_described (consumer_of [5, 1]) 0xA0).2.position
      = (consumer_of [5, 1]).size :=
  ⟨by decide, by decide, by decide,
    C12_variable_width_failure_poisons (consumer_of [5, 1]) 0xA0 (by decide) (by decide)
      (by decide)⟩

/-- C13. Unrecognised compact-integer marker.  When a byte remains at the position `p` of
the consumer and it is none of SMALLULONG, ULONG, ULONG0, `consume_ulong` fails with that
byte consumed and nothing more: the final position is `p + 1`; it is not forced to `size`,
and stays below `size` when more bytes follow. -/
theorem C13_unrecognised_marker (c : pni_consumer_t) (hp : c.position < c.size)
    (hs : c.size ≤ SIZE_MAX) (hm1 : c.byte c.position ≠ PNE_SMALLULONG)
    (hm8 : c.byte c.position ≠ PNE_ULONG) (hm0 : c.byte c.position ≠ PNE_ULONG0) :
    consume_ulong c = (none, { c with position := c.position + 1 }) ∧
    (c.position + 1 < c.size → (consume_ulong c).2.position < c.size) := by
  have h := ulong_other c (by omega) hs hm0 hm1 hm8
  refine ⟨h, fun hlt => ?_⟩
  rw [h]
  exact hlt

/-- C13, at a fresh consumer over `[0x45, 1, 2]`. -/
theorem C13_unrecognised_marker_witness :
    (consumer_of [0x45, 1, 2]).position < (consumer_of [0x45, 1, 2]).size ∧
    (consumer_of [0x45, 1, 2]).size ≤ SIZE_MAX ∧
    (consumer_of [0x45, 1, 2]).byte (consumer_of [0x45, 1, 2]).position ≠ PNE_SMALLULONG ∧
    (consumer_of [0x45, 1, 2]).byte (consumer_of [0x45, 1, 2]).position ≠ PNE_ULONG ∧
    (consumer_of [0x45, 1, 2]).byte (consumer_of [0x45, 1, 2]).position ≠ PNE_ULONG0 ∧
    consume_ulong (consumer_of [0x45, 1, 2])
      = (none, { consumer_of [0x45, 1, 2] with
          position := (consumer_of [0x45, 1, 2]).position + 1 }) :=
  ⟨by decide, by decide, by decide, by decide, by decide,
    (C13_unrecognised_marker (consumer_of [0x45, 1, 2]) (by decide) (by decide) (by decide)
      (by decide) (by decide)).1⟩

/-- C14. Invalid category.  For every consumer and every tag whose high nibble is in 0x0 to
0x3, `pni_consumer_read_value_not_described` fails and sets the position to `size`. -/
theorem C14_invalid_category (c : pni_consumer_t) (tag : Nat) (hk : tag >>> 4 ≤ 0x3) :
    pni_consumer_read_value_not_described c tag = (none, { c with position := c.size }) :=
  read_value_invalid c tag (Or.inl (by omega))

/-- C14, at the tag 0x31 on a fresh consumer over four bytes. -/
theorem C14_invalid_category_witness :
    0x31 >>> 4 ≤ 0x3 ∧
    pni_consumer_read_value_not_described (consumer_of [1, 2, 3, 4]) 0x31
      = (none, { consumer_of [1, 2, 3, 4] with position := (consumer_of [1, 2, 3, 4]).size }) :=
  ⟨by decide, C14_invalid_category (consumer_of [1, 2, 3, 4]) 0x31 (by decide)⟩

/-! ## No reader moves the position back -/

theorem advanced_refl (c : pni_consumer_t) : same_buffer_advanced c c := ⟨rfl, rfl, le_refl _⟩

theorem advanced_to (c : pni_consumer_t) (q : Nat) (h : c.position ≤ q) :
    same_buffer_advanced c { c with position := q } := ⟨rfl, rfl, h⟩

theorem advanced_ite {α : Type} (c : pni_consumer_t) (cond : Prop) [Decidable cond]
    (x y : α) (q1 q2 : Nat) (h1 : c.position ≤ q1) (h2 : c.position ≤ q2) :
    same_buffer_advanced c
      (if cond then (x, { c with position := q1 }) else (y, { c with position := q2 })).2 := by
  split
  · exact advanced_to c q1 h1
  · exact advanced_to c q2 h2

theorem readf8_advanced (c : pni_consumer_t) (hp : c.position ≤ c.size)
    (hs : c.size ≤ PTRDIFF_MAX) : same_buffer_advanced c (pni_consumer_readf8 c).2 := by
  rw [readf8_eq c (nowrap_of_object c 1 hp hs (by norm_num))]
  exact advanced_ite c _ _ _ _ _ (by omega) hp

theorem readf16_advanced (c : pni_consumer_t) (hp : c.position ≤ c.size)
    (hs : c.size ≤ PTRDIFF_MAX) : same_buffer_advanced c (pni_consumer_readf16 c).2 := by
  rw [readf16_eq c (nowrap_of_object c 2 hp hs (by norm_num))]
  exact advanced_ite c _ _ _ _ _ (by omega) hp

theorem readf32_advanced (c : pni_consumer_t) (hp : c.position ≤ c.size)
    (hs : c.size ≤ PTRDIFF_MAX) : same_buffer_advanced c (pni_consumer_readf32 c).2 := by
  rw [readf32_eq c (nowrap_of_object c 4 hp hs (by norm_num))]
  exact advanced_ite c _ _ _ _ _ (by omega) hp

theorem readf64_advanced (c : pni_consumer_t) (hp : c.position ≤ c.size)
    (hs : c.size ≤ PTRDIFF_MAX) : same_buffer_advanced c (pni_consumer_readf64 c).2 := by
  rw [readf64_eq c (nowrap_of_object c 8 hp hs (by norm_num))]
  exact advanced_ite c _ _ _ _ _ (by omega) hp

theorem readf128_advanced (c : pni_consumer_t) (hp : c.position ≤ c.size)
    (hs : c.size ≤ PTRDIFF_MAX) : same_buffer_advanced c (pni_consumer_readf128 c).2 := by
  rw [readf128_eq c (nowrap_of_object c 16 hp hs (by norm_num))]
  split
  · exact advanced_to c _ (by omega)
  · exact advanced_refl c

theorem read_value_advanced (c : pni_consumer_t) (tag : Nat) (hp : c.position ≤ c.size)
    (hs : c.size ≤ PTRDIFF_MAX) :
    same_buffer_advanced c (pni_consumer_read_value_not_described c tag).2 := by
  have hb1 := byte_lt c c.position
  have hb4 := be_uint_four_lt c c.position
  have hw1 := nowrap_of_object c (1 + c.byte c.position) hp hs (by norm_num; omega)
  have hw4 := nowrap_of_object c (4 + be_uint c c.position 4) hp hs (by omega)
  rw [← Nat.add_assoc] at hw1 hw4
  rcases nibble_cases tag with hk | hk | hk | hk | hk
  · rw [read_value_invalid c tag hk]
    exact advanced_to c _ hp
  · rw [read_value_empty c tag hk]
    exact advanced_refl c
  · rw [read_value_fixed c tag hk (nowrap_of_object c _ hp hs (fixed_len_le _ hk))]
    exact advanced_ite c _ _ _ _ _ (Nat.le_add_right _ _) hp
  · rw [read_value_short c tag hk hw1]
    exact advanced_ite c _ _ _ _ _ (by omega) hp
  · rw [read_value_long c tag hk hw4]
    exact advanced_ite c _ _ _ _ _ (by omega) hp

theorem expected_ubyte_advanced (c : pni_consumer_t) (expected : Nat)
    (hp : c.position ≤ c.size) (hs : c.size ≤ PTRDIFF_MAX) :
    same_buffer_advanced c (consume_expected_ubyte c expected).2 := by
  rw [expected_ubyte_eq c _ (nowrap_of_object c 1 hp hs (by norm_num))]
  exact advanced_ite c _ _ _ _ _ (by omega) hp

theorem ulong_advanced (c : pni_consumer_t) (hp : c.position ≤ c.size)
    (hs : c.size ≤ PTRDIFF_MAX) : same_buffer_advanced c (consume_ulong c).2 := by
  rw [ulong_eq c (nowrap_of_object c 9 hp hs (by norm_num))]
  repeat' split
  all_goals exact advanced_to c _ (by omega)

theorem descriptor_advanced (c : pni_consumer_t) (hp : c.position ≤ c.size)
    (hs : c.size ≤ PTRDIFF_MAX) : same_buffer_advanced c (consume_descriptor c).2 := by
  rw [descriptor_eq c (nowrap_of_object c 1 hp hs (by norm_num))]
  split
  · split
    · have h := ulong_advanced { c with position := c.position + 1 } (by simpa using ‹_›) hs
      obtain ⟨hb, hz, hq⟩ := h
      exact ⟨hb, hz, by simp only at hq; omega⟩
    · exact advanced_to c _ (by omega)
  · exact advanced_to c _ hp

/-- C15. On a consumer with position `p ≤ size`, after `pni_consumer_readf8`, `readf16`,
`readf32`, `readf64`, `readf128`, `pni_consumer_read_value_not_described` with any tag,
`consume_expected_ubyte` with any expected byte, `consume_ulong` or `consume_descriptor`,
on success and on failure alike, the position is at least `p` and the buffer pointer and
the size are those before the call. -/
theorem C15_position_monotone (c : pni_consumer_t) (hp : c.position ≤ c.size)
    (hs : c.size ≤ PTRDIFF_MAX) :
    same_buffer_advanced c (pni_consumer_readf8 c).2 ∧
    same_buffer_advanced c (pni_consumer_readf16 c).2 ∧
    same_buffer_advanced c (pni_consumer_readf32 c).2 ∧
    same_buffer_advanced c (pni_consumer_readf64 c).2 ∧
    same_buffer_advanced c (pni_consumer_readf128 c).2 ∧
    (∀ tag, same_buffer_advanced c (pni_consumer_read_value_not_described c tag).2) ∧
    (∀ expected, same_buffer_advanced c (consume_expected_ubyte c expected).2) ∧
    same_buffer_advanced c (consume_ulong c).2 ∧
    same_buffer_advanced c (consume_descriptor c).2 :=
  ⟨readf8_advanced c hp hs, readf16_advanced c hp hs, readf32_advanced c hp hs,
    readf64_advanced c hp hs, readf128_advanced c hp hs,
    fun tag => read_value_advanced c tag hp hs,
    fun expected => expected_ubyte_advanced c expected hp hs,
    ulong_advanced c hp hs, descriptor_advanced c hp hs⟩

/-- C15, at a consumer in the middle of `[0, 0x53, 0x42, 7]`: `consume_descriptor` does not
move the position back. -/
theorem C15_position_monotone_witness :
    (consumer_at [0, 0x53, 0x42, 7] 1).position ≤ (consumer_at [0, 0x53, 0x42, 7] 1).size ∧
    (consumer_at [0, 0x53, 0x42, 7] 1).size ≤ PTRDIFF_MAX ∧
    same_buffer_advanced (consumer_at [0, 0x53, 0x42, 7] 1)
      (consume_descriptor (consumer_at [0, 0x53, 0x42, 7] 1)).2 :=
  ⟨by decide, by decide,
    (C15_position_monotone (consumer_at [0, 0x53, 0x42, 7] 1) (by decide)
      (by decide)).2.2.2.2.2.2.2.2⟩

/-- At `position = size = SIZE_MAX` and a declared length of 1 the sum `position + 1` of the
length check wraps to 0, and the machine comparison answers "fits" where the exact
comparison answers "does not fit".  No buffer has `SIZE_MAX` bytes. -/
theorem length_check_at_size_max :
    ¬ (size_add SIZE_MAX 1 > SIZE_MAX ↔ SIZE_MAX + 1 > SIZE_MAX) := by
  decide

/-- The machine comparison of the length check gives the answer of the exact comparison
exactly when `position + n` does not wrap. -/
theorem length_check_exact_iff (c : pni_consumer_t) (n : Nat)
    (hp : c.position ≤ c.size) (hs : c.size ≤ SIZE_MAX) (hn : n ≤ SIZE_MAX) :
    (size_add c.position n > c.size ↔ c.position + n > c.size)
      ↔ c.position + n ≤ SIZE_MAX := by
  simp only [SIZE_MAX, SIZE_WIDTH, size_add] at *
  omega

/-- C16. With `size_t` sums wrapping modulo `2 ^ 64`, on a consumer with `position ≤ size`
and for a declared length `n` below `2 ^ 32` (read from a 1-byte or a 4-byte length), the
machine comparison `size_add position n > size` of the length check gives the answer of the
exact comparison `position + n > size`; and a variable-width read that succeeds returns a
span no longer than the bytes remaining after the length. -/
theorem C16_length_check_exact (c : pni_consumer_t) (n : Nat)
    (hp : c.position ≤ c.size) (hs : c.size ≤ PTRDIFF_MAX) (hn : n < 2 ^ 32) :
    (size_add c.position n > c.size ↔ c.position + n > c.size) ∧
    (∀ tag v c1, pni_consumer_read_value_not_described c tag = (some v, c1) →
      (tag >>> 4 = 0xA ∨ tag >>> 4 = 0xC ∨ tag >>> 4 = 0xE →
        c.position + 1 + v.size ≤ c.size) ∧
      (tag >>> 4 = 0xB ∨ tag >>> 4 = 0xD ∨ tag >>> 4 = 0xF →
        c.position + 4 + v.size ≤ c.size)) := by
  refine ⟨?_, ?_⟩
  · rw [size_add_eq _ _ (nowrap_of_object c n hp hs (by omega))]
  · intro tag v c1 hv
    have hb1 := byte_lt c c.position
    have hb4 := be_uint_four_lt c c.position
    have hw1 := nowrap_of_object c (1 + c.byte c.position) hp hs (by norm_num; omega)
    have hw4 := nowrap_of_object c (4 + be_uint c c.position 4) hp hs (by omega)
    rw [← Nat.add_assoc] at hw1 hw4
    refine ⟨fun hk => ?_, fun hk => ?_⟩
    · rw [read_value_short c tag hk hw1] at hv
      split at hv
      · simp only [Prod.mk.injEq, Option.some.injEq] at hv
        obtain ⟨rfl, -⟩ := hv
        simp only
        omega
      · simp at hv
    · rw [read_value_long c tag hk hw4] at hv
      split at hv
      · simp only [Prod.mk.injEq, Option.some.injEq] at hv
        obtain ⟨rfl, -⟩ := hv
        simp only
        omega
      · simp at hv

/-- C16, at the consumer after the length byte of `[200, 7, 9]` and the declared length
200: both comparisons answer "does not fit". -/
theorem C16_length_check_exact_witness :
    (consumer_at [200, 7, 9] 1).position ≤ (consumer_at [200, 7, 9] 1).size ∧
    (consumer_at [200, 7, 9] 1).size ≤ PTRDIFF_MAX ∧
    200 < 2 ^ 32 ∧
    (size_add (consumer_at [200, 7, 9] 1).position 200 > (consumer_at [200, 7, 9] 1).size
      ↔ (consumer_at [200, 7, 9] 1).position + 200 > (consumer_at [200, 7, 9] 1).size) :=
  ⟨by decide, by decide, by norm_num,
    (C16_length_check_exact (consumer_at [200, 7, 9] 1) 200 (by decide) (by decide)
      (by norm_num)).1⟩

/-- C17. On a consumer with position `p ≤ size`, the two-u32 `pni_consumer_readf64` has the
outcome (success, value, consumer after the call) of the direct reader
`readf64_reference`. -/
theorem C17_readf64_refines_direct_read (c : pni_consumer_t) (hp : c.position ≤ c.size)
    (hs : c.size ≤ PTRDIFF_MAX) :
    pni_consumer_readf64 c = readf64_reference c := by
  rw [readf64_eq c (nowrap_of_object c 8 hp hs (by norm_num))]
  rfl

/-- C17, at a consumer with 6 bytes remaining, where the first half is read and the second
is not. -/
theorem C17_readf64_refines_direct_read_witness :
    (consumer_at [9, 1, 2, 3, 4, 5, 6] 1).position ≤ (consumer_at [9, 1, 2, 3, 4, 5, 6] 1).size ∧
    (consumer_at [9, 1, 2, 3, 4, 5, 6] 1).size ≤ PTRDIFF_MAX ∧
    pni_consumer_readf64 (consumer_at [9, 1, 2, 3, 4, 5, 6] 1)
      = readf64_reference (consumer_at [9, 1, 2, 3, 4, 5, 6] 1) :=
  ⟨by decide, by decide,
    C17_readf64_refines_direct_read (consumer_at [9, 1, 2, 3, 4, 5, 6] 1) (by decide)
      (by decide)⟩

/-- C18. On a consumer with position `p ≤ size`, `consume_ulong` succeeds exactly when a
byte remains and it is ULONG0, or SMALLULONG with `p + 2 ≤ size`, or ULONG with
`p + 9 ≤ size`; and when it fails because the buffer ran out (no marker byte, or a
truncated SMALLULONG or ULONG payload) the final position is `size`. -/
theorem C18_ulong_acceptance (c : pni_consumer_t) (hp : c.position ≤ c.size)
    (hs : c.size ≤ PTRDIFF_MAX) :
    ((consume_ulong c).1 ≠ none ↔
      c.position < c.size ∧
        (c.byte c.position = PNE_ULONG0 ∨
          (c.byte c.position = PNE_SMALLULONG ∧ c.position + 2 ≤ c.size) ∨
          (c.byte c.position = PNE_ULONG ∧ c.position + 9 ≤ c.size))) ∧
    (¬ c.position < c.size → consume_ulong c = (none, { c with position := c.size })) ∧
    (c.position < c.size → c.byte c.position = PNE_SMALLULONG → c.size < c.position + 2 →
      consume_ulong c = (none, { c with position := c.size })) ∧
    (c.position < c.size → c.byte c.position = PNE_ULONG → c.size < c.position + 9 →
      consume_ulong c = (none, { c with position := c.size })) := by
  rw [ulong_eq c (nowrap_of_object c 9 hp hs (by norm_num))]
  have d1 : PNE_ULONG ≠ PNE_SMALLULONG := by decide
  have d2 : PNE_ULONG0 ≠ PNE_SMALLULONG := by decide
  have d3 : PNE_ULONG0 ≠ PNE_ULONG := by decide
  refine ⟨?_, fun h => ?_, fun h hm hz => ?_, fun h hm hz => ?_⟩
  · by_cases h1 : c.position + 1 ≤ c.size
    · have hlt : c.position < c.size := by omega
      by_cases hm1 : c.byte c.position = PNE_SMALLULONG
      · by_cases h2 : c.position + 2 ≤ c.size <;> simp [h1, hlt, hm1, h2, d1.symm, d2.symm]
      · by_cases hm8 : c.byte c.position = PNE_ULONG
        · by_cases h9 : c.position + 9 ≤ c.size <;> simp [h1, hlt, hm8, h9, d1, d3.symm]
        · by_cases hm0 : c.byte c.position = PNE_ULONG0 <;> simp [h1, hlt, hm1, hm8, hm0, d2, d3]
    · have hlt : ¬ c.position < c.size := by omega
      simp [h1, hlt]
  · rw [if_neg (by omega)]
  · rw [if_pos (by omega), if_pos hm, if_neg (by omega)]
  · rw [if_pos (by omega), if_neg (by rw [hm]; exact d1), if_pos hm, if_neg (by omega)]

/-- C18, at a fresh consumer over a ULONG marker with only 3 of its 8 bytes. -/
theorem C18_ulong_acceptance_witness :
    (consumer_of [0x80, 1, 2, 3]).position ≤ (consumer_of [0x80, 1, 2, 3]).size ∧
    (consumer_of [0x80, 1, 2, 3]).size ≤ PTRDIFF_MAX ∧
    (consumer_of [0x80, 1, 2, 3]).position < (consumer_of [0x80, 1, 2, 3]).size ∧
    (consumer_of [0x80, 1, 2, 3]).byte (consumer_of [0x80, 1, 2, 3]).position = PNE_ULONG ∧
    (consumer_of [0x80, 1, 2, 3]).size < (consumer_of [0x80, 1, 2, 3]).position + 9 ∧
    consume_ulong (consumer_of [0x80, 1, 2, 3])
      = (none, { consumer_of [0x80, 1, 2, 3] with
          position := (consumer_of [0x80, 1, 2, 3]).size }) :=
  ⟨by decide, by decide, by decide, by decide, by decide,
    (C18_ulong_acceptance (consumer_of [0x80, 1, 2, 3]) (by decide) (by decide)).2.2.2
      (by decide) (by decide) (by decide)⟩

/-- C20. On an exhausted consumer (`position = size`), for every tag:
`pni_consumer_read_value_not_described` succeeds exactly when the high nibble is 0x4, it
then returns the empty span (length 0, null start), and the position is still `size`
afterwards. -/
theorem C20_exhausted_value_span (c : pni_consumer_t) (tag : Nat)
    (he : c.position = c.size) (hs : c.size ≤ PTRDIFF_MAX) :
    ((pni_consumer_read_value_not_described c tag).1 ≠ none ↔ tag >>> 4 = 0x4) ∧
    (tag >>> 4 = 0x4 →
      (pni_consumer_read_value_not_described c tag).1
        = some { size := 0, start := pn_ptr.null }) ∧
    (pni_consumer_read_value_not_described c tag).2.position = c.size := by
  have hp : c.position ≤ c.size := by omega
  have hb1 := byte_lt c c.position
  have hb4 := be_uint_four_lt c c.position
  have hw1 := nowrap_of_object c (1 + c.byte c.position) hp hs (by norm_num; omega)
  have hw4 := nowrap_of_object c (4 + be_uint c c.position 4) hp hs (by omega)
  rw [← Nat.add_assoc] at hw1 hw4
  rcases nibble_cases tag with hk | hk | hk | hk | hk
  · rw [read_value_invalid c tag hk]
    exact ⟨by simp; omega, fun h4 => by omega, rfl⟩
  · rw [read_value_empty c tag hk]
    exact ⟨by simp [hk], fun _ => rfl, he⟩
  · rw [read_value_fixed c tag hk (nowrap_of_object c _ hp hs (fixed_len_le _ hk))]
    have hpos : 0 < 2 ^ (tag >>> 4 - 5) := Nat.two_pow_pos _
    rw [if_neg (by omega)]
    exact ⟨by simp; omega, fun h4 => by omega, rfl⟩
  · rw [read_value_short c tag hk hw1, if_neg (by omega)]
    exact ⟨by simp; omega, fun h4 => by omega, rfl⟩
  · rw [read_value_long c tag hk hw4, if_neg (by omega)]
    exact ⟨by simp; omega, fun h4 => by omega, rfl⟩

/-- C20, at the exhausted consumer over `[1, 2]` and the tag 0x40. -/
theorem C20_exhausted_value_span_witness :
    (consumer_at [1, 2] 2).position = (consumer_at [1, 2] 2).size ∧
    (consumer_at [1, 2] 2).size ≤ PTRDIFF_MAX ∧
    0x40 >>> 4 = 0x4 ∧
    (pni_consumer_read_value_not_described (consumer_at [1, 2] 2) 0x40).1
      = some { size := 0, start := pn_ptr.null } :=
  ⟨by decide, by decide, by decide,
    (C20_exhausted_value_span (consumer_at [1, 2] 2) 0x40 (by decide) (by decide)).2.1
      (by decide)⟩

/-! ## Reading the same bytes from a longer buffer -/

theorem consumer_at_with_position (mem : List (Fin 256)) (p q : Nat) :
    ({ consumer_at mem p with position := q } : pni_consumer_t) = consumer_at mem q := rfl

theorem consumer_at_position (mem : List (Fin 256)) (p : Nat) :
    (consumer_at mem p).position = p := rfl

theorem consumer_at_size (mem : List (Fin 256)) (p : Nat) :
    (consumer_at mem p).size = mem.length := rfl

theorem byte_append (B E : List (Fin 256)) (p q i : Nat) (hi : i < B.length) :
    (consumer_at (B ++ E) p).byte i = (consumer_at B q).byte i := by
  simp only [pni_consumer_t.byte, consumer_at, consumer_of, make_consumer_from_bytes,
    pn_ptr.load, Nat.zero_add]
  rw [List.getD_append _ _ _ _ hi]

theorem be_uint_append (B E : List (Fin 256)) (p q i n : Nat) (hi : i + n ≤ B.length) :
    be_uint (consumer_at (B ++ E) p) i n = be_uint (consumer_at B q) i n := by
  unfold be_uint
  congr 1
  apply List.map_congr_left
  intro j hj
  rw [List.mem_range] at hj
  rw [byte_append B E p q (i + j) (by omega)]

theorem same_span_append (B E : List (Fin 256)) (p q off len : Nat)
    (h : off + len ≤ B.length) :
    same_span { size := len, start := (consumer_at B p).output_start.add off }
      { size := len, start := (consumer_at (B ++ E) q).output_start.add off } := by
  refine ⟨rfl, rfl, ?_⟩
  simp only [pn_bytes_t.bytes, load_add]
  apply List.map_congr_left
  intro j hj
  rw [List.mem_range] at hj
  exact byte_append B E q p (off + j) (by omega)

theorem stable_ite {α β : Type} (R : α → β → Prop) (B E : List (Fin 256))
    (condB condE : Prop) [Decidable condB] [Decidable condE] (xB : α) (xE : β)
    (qB qE sB sE : Nat) (hc : condB → condE) (hx : condB → R xB xE) (hq : condB → qE = qB)
    (r : α) (c1 : pni_consumer_t)
    (h : (if condB then (some xB, consumer_at B qB) else (none, consumer_at B sB))
      = (some r, c1)) :
    ∃ r2, (if condE then (some xE, consumer_at (B ++ E) qE)
        else (none, consumer_at (B ++ E) sE))
      = (some r2, consumer_at (B ++ E) c1.position) ∧ R r r2 := by
  by_cases hB : condB
  · rw [if_pos hB] at h
    simp only [Prod.mk.injEq, Option.some.injEq] at h
    obtain ⟨rfl, rfl⟩ := h
    rw [if_pos (hc hB), hq hB]
    exact ⟨xE, rfl, hx hB⟩
  · rw [if_neg hB] at h
    simp at h

theorem nowrap_at (mem : List (Fin 256)) (p n : Nat) (hp : p ≤ mem.length)
    (hs : mem.length ≤ PTRDIFF_MAX) (hn : n ≤ 2 ^ 32 + 4) :
    (consumer_at mem p).position + n ≤ SIZE_MAX :=
  nowrap_of_object (consumer_at mem p) n hp hs hn

theorem readf8_stable (B E : List (Fin 256)) (p : Nat) (hp : p ≤ B.length)
    (hs : (B ++ E).length ≤ PTRDIFF_MAX) (r : Nat) (c1 : pni_consumer_t)
    (h : pni_consumer_readf8 (consumer_at B p) = (some r, c1)) :
    pni_consumer_readf8 (consumer_at (B ++ E) p)
      = (some r, consumer_at (B ++ E) c1.position) := by
  rw [List.length_append] at hs
  rw [readf8_eq _ (nowrap_at B p 1 hp (by omega) (by norm_num))] at h
  rw [readf8_eq _ (nowrap_at (B ++ E) p 1 (by simp; omega) (by simp; omega) (by norm_num))]
  obtain ⟨r2, h2, rfl⟩ := stable_ite Eq B E (p + 1 ≤ B.length) (p + 1 ≤ (B ++ E).length)
    ((consumer_at B p).byte p) ((consumer_at (B ++ E) p).byte p) (p + 1) (p + 1)
    B.length (B ++ E).length (fun hc => by simp; omega)
    (fun hc => (byte_append B E p p p (by omega)).symm) (fun _ => rfl) r c1 h
  exact h2

theorem readf16_stable (B E : List (Fin 256)) (p : Nat) (hp : p ≤ B.length)
    (hs : (B ++ E).length ≤ PTRDIFF_MAX) (r : Nat) (c1 : pni_consumer_t)
    (h : pni_consumer_readf16 (consumer_at B p) = (some r, c1)) :
    pni_consumer_readf16 (consumer_at (B ++ E) p)
      = (some r, consumer_at (B ++ E) c1.position) := by
  rw [List.length_append] at hs
  rw [readf16_eq _ (nowrap_at B p 2 hp (by omega) (by norm_num))] at h
  rw [readf16_eq _ (nowrap_at (B ++ E) p 2 (by simp; omega) (by simp; omega) (by norm_num))]
  obtain ⟨r2, h2, rfl⟩ := stable_ite Eq B E (p + 2 ≤ B.length) (p + 2 ≤ (B ++ E).length)
    (be_uint (consumer_at B p) p 2) (be_uint (consumer_at (B ++ E) p) p 2) (p + 2) (p + 2)
    B.length (B ++ E).length (fun hc => by simp; omega)
    (fun hc => (be_uint_append B E p p p 2 hc).symm) (fun _ => rfl) r c1 h
  exact h2

theorem readf32_stable (B E : List (Fin 256)) (p : Nat) (hp : p ≤ B.length)
    (hs : (B ++ E).length ≤ PTRDIFF_MAX) (r : Nat) (c1 : pni_consumer_t)
    (h : pni_consumer_readf32 (consumer_at B p) = (some r, c1)) :
    pni_consumer_readf32 (consumer_at (B ++ E) p)
      = (some r, consumer_at (B ++ E) c1.position) := by
  rw [List.length_append] at hs
  rw [readf32_eq _ (nowrap_at B p 4 hp (by omega) (by norm_num))] at h
  rw [readf32_eq _ (nowrap_at (B ++ E) p 4 (by simp; omega) (by simp; omega) (by norm_num))]
  obtain ⟨r2, h2, rfl⟩ := stable_ite Eq B E (p + 4 ≤ B.length) (p + 4 ≤ (B ++ E).length)
    (be_uint (consumer_at B p) p 4) (be_uint (consumer_at (B ++ E) p) p 4) (p + 4) (p + 4)
    B.length (B ++ E).length (fun hc => by simp; omega)
    (fun hc => (be_uint_append B E p p p 4 hc).symm) (fun _ => rfl) r c1 h
  exact h2

theorem readf64_stable (B E : List (Fin 256)) (p : Nat) (hp : p ≤ B.length)
    (hs : (B ++ E).length ≤ PTRDIFF_MAX) (r : Nat) (c1 : pni_consumer_t)
    (h : pni_consumer_readf64 (consumer_at B p) = (some r, c1)) :
    pni_consumer_readf64 (consumer_at (B ++ E) p)
      = (some r, consumer_at (B ++ E) c1.position) := by
  rw [List.length_append] at hs
  rw [readf64_eq _ (nowrap_at B p 8 hp (by omega) (by norm_num))] at h
  rw [readf64_eq _ (nowrap_at (B ++ E) p 8 (by simp; omega) (by simp; omega) (by norm_num))]
  obtain ⟨r2, h2, rfl⟩ := stable_ite Eq B E (p + 8 ≤ B.length) (p + 8 ≤ (B ++ E).length)
    (be_uint (consumer_at B p) p 8) (be_uint (consumer_at (B ++ E) p) p 8) (p + 8) (p + 8)
    B.length (B ++ E).length (fun hc => by simp; omega)
    (fun hc => (be_uint_append B E p p p 8 hc).symm) (fun _ => rfl) r c1 h
  exact h2

theorem readf128_stable (B E : List (Fin 256)) (p : Nat) (hp : p ≤ B.length)
    (hs : (B ++ E).length ≤ PTRDIFF_MAX) (r : List Nat) (c1 : pni_consumer_t)
    (h : pni_consumer_readf128 (consumer_at B p) = (some r, c1)) :
    pni_consumer_readf128 (consumer_at (B ++ E) p)
      = (some r, consumer_at (B ++ E) c1.position) := by
  rw [List.length_append] at hs
  rw [readf128_eq _ (nowrap_at B p 16 hp (by omega) (by norm_num))] at h
  rw [readf128_eq _ (nowrap_at (B ++ E) p 16 (by simp; omega) (by simp; omega) (by norm_num))]
  obtain ⟨r2, h2, rfl⟩ := stable_ite Eq B E (p + 16 ≤ B.length) (p + 16 ≤ (B ++ E).length)
    ((List.range 16).map (fun i => (consumer_at B p).byte (p + i)))
    ((List.range 16).map (fun i => (consumer_at (B ++ E) p).byte (p + i))) (p + 16) (p + 16)
    p p (fun hc => by simp; omega)
    (fun hc => by
      apply List.map_congr_left
      intro j hj
      rw [List.mem_range] at hj
      exact (byte_append B E p p (p + j) (by omega)).symm)
    (fun _ => rfl) r c1 h
  exact h2

theorem expected_ubyte_stable (B E : List (Fin 256)) (p expected : Nat) (hp : p ≤ B.length)
    (hs : (B ++ E).length ≤ PTRDIFF_MAX) (c1 : pni_consumer_t)
    (h : consume_expected_ubyte (consumer_at B p) expected = (true, c1)) :
    consume_expected_ubyte (consumer_at (B ++ E) p) expected
      = (true, consumer_at (B ++ E) c1.position) := by
  rw [List.length_append] at hs
  rw [expected_ubyte_eq _ _ (nowrap_at B p 1 hp (by omega) (by norm_num))] at h
  rw [expected_ubyte_eq _ _
    (nowrap_at (B ++ E) p 1 (by simp; omega) (by simp; omega) (by norm_num))]
  by_cases h1 : p + 1 ≤ B.length
  · have h1B : (consumer_at B p).position + 1 ≤ (consumer_at B p).size := h1
    have h1E : (consumer_at (B ++ E) p).position + 1 ≤ (consumer_at (B ++ E) p).size := by
      simp only [consumer_at_position, consumer_at_size, List.length_append]; omega
    rw [if_pos h1B] at h
    rw [if_pos h1E]
    simp only [Prod.mk.injEq] at h
    obtain ⟨hd, rfl⟩ := h
    rw [consumer_at_position, byte_append B E p p p (by omega)]
    rw [consumer_at_position] at hd
    rw [hd]
    rfl
  · have h1B : ¬ (consumer_at B p).position + 1 ≤ (consumer_at B p).size := h1
    rw [if_neg h1B] at h
    simp at h

theorem same_span_refl (v : pn_bytes_t) : same_span v v := ⟨rfl, rfl, rfl⟩

theorem read_value_stable (B E : List (Fin 256)) (p tag : Nat) (hp : p ≤ B.length)
    (hs : (B ++ E).length ≤ PTRDIFF_MAX) (v : pn_bytes_t) (c1 : pni_consumer_t)
    (h : pni_consumer_read_value_not_described (consumer_at B p) tag = (some v, c1)) :
    ∃ v2, pni_consumer_read_value_not_described (consumer_at (B ++ E) p) tag
        = (some v2, consumer_at (B ++ E) c1.position) ∧ same_span v v2 := by
  have hsE := hs
  rw [List.length_append] at hs
  have hpE : p ≤ (B ++ E).length := by simp; omega
  have hsB : B.length ≤ PTRDIFF_MAX := by omega
  have hbB := byte_lt (consumer_at B p) p
  have hbE := byte_lt (consumer_at (B ++ E) p) p
  have hb4B := be_uint_four_lt (consumer_at B p) p
  have hb4E := be_uint_four_lt (consumer_at (B ++ E) p) p
  rcases nibble_cases tag with hk | hk | hk | hk | hk
  · rw [read_value_invalid _ tag hk] at h
    simp at h
  · rw [read_value_empty _ tag hk] at h
    rw [read_value_empty _ tag hk]
    simp only [Prod.mk.injEq, Option.some.injEq] at h
    obtain ⟨rfl, rfl⟩ := h
    exact ⟨_, rfl, same_span_refl _⟩
  · rw [read_value_fixed _ tag hk (nowrap_at B p _ hp hsB (fixed_len_le _ hk))] at h
    rw [read_value_fixed _ tag hk (nowrap_at (B ++ E) p _ hpE hsE (fixed_len_le _ hk))]
    exact stable_ite same_span B E (p + 2 ^ (tag >>> 4 - 5) ≤ B.length)
      (p + 2 ^ (tag >>> 4 - 5) ≤ (B ++ E).length)
      { size := 2 ^ (tag >>> 4 - 5), start := (consumer_at B p).output_start.add p }
      { size := 2 ^ (tag >>> 4 - 5), start := (consumer_at (B ++ E) p).output_start.add p }
      (p + 2 ^ (tag >>> 4 - 5)) (p + 2 ^ (tag >>> 4 - 5)) B.length (B ++ E).length
      (fun hc => by simp; omega) (fun hc => same_span_append B E p p p _ hc)
      (fun _ => rfl) v c1 h
  · have hwB := nowrap_at B p (1 + (consumer_at B p).byte p) hp hsB (by norm_num; omega)
    have hwE := nowrap_at (B ++ E) p (1 + (consumer_at (B ++ E) p).byte p) hpE hsE
      (by norm_num; omega)
    rw [← Nat.add_assoc] at hwB hwE
    rw [read_value_short _ tag hk hwB] at h
    rw [read_value_short _ tag hk hwE]
    exact stable_ite same_span B E
      (p + 1 ≤ B.length ∧ p + 1 + (consumer_at B p).byte p ≤ B.length)
      (p + 1 ≤ (B ++ E).length ∧ p + 1 + (consumer_at (B ++ E) p).byte p ≤ (B ++ E).length)
      { size := (consumer_at B p).byte p, start := (consumer_at B p).output_start.add (p + 1) }
      { size := (consumer_at (B ++ E) p).byte p,
        start := (consumer_at (B ++ E) p).output_start.add (p + 1) }
      (p + 1 + (consumer_at B p).byte p) (p + 1 + (consumer_at (B ++ E) p).byte p)
      B.length (B ++ E).length
      (fun hc => by
        rw [byte_append B E p p p (by omega)]
        simp only [List.length_append]
        omega)
      (fun hc => by
        rw [byte_append B E p p p (by omega)]
        exact same_span_append B E p p (p + 1) _ hc.2)
      (fun hc => by rw [byte_append B E p p p (by omega)]) v c1 h
  · have hwB := nowrap_at B p (4 + be_uint (consumer_at B p) p 4) hp hsB (by omega)
    have hwE := nowrap_at (B ++ E) p (4 + be_uint (consumer_at (B ++ E) p) p 4) hpE hsE
      (by omega)
    rw [← Nat.add_assoc] at hwB hwE
    rw [read_value_long _ tag hk hwB] at h
    rw [read_value_long _ tag hk hwE]
    exact stable_ite same_span B E
      (p + 4 ≤ B.length ∧ p + 4 + be_uint (consumer_at B p) p 4 ≤ B.length)
      (p + 4 ≤ (B ++ E).length
        ∧ p + 4 + be_uint (consumer_at (B ++ E) p) p 4 ≤ (B ++ E).length)
      { size := be_uint (consumer_at B p) p 4,
        start := (consumer_at B p).output_start.add (p + 4) }
      { size := be_uint (consumer_at (B ++ E) p) p 4,
        start := (consumer_at (B ++ E) p).output_start.add (p + 4) }
      (p + 4 + be_uint (consumer_at B p) p 4) (p + 4 + be_uint (consumer_at (B ++ E) p) p 4)
      B.length (B ++ E).length
      (fun hc => by
        rw [be_uint_append B E p p p 4 hc.1]
        simp only [List.length_append]
        omega)
      (fun hc => by
        rw [be_uint_append B E p p p 4 hc.1]
        exact same_span_append B E p p (p + 4) _ hc.2)
      (fun hc => by rw [be_uint_append B E p p p 4 hc.1]) v c1 h

theorem ulong_stable (B E : List (Fin 256)) (p : Nat) (hp : p ≤ B.length)
    (hs : (B ++ E).length ≤ PTRDIFF_MAX) (r : Nat) (c1 : pni_consumer_t)
    (h : consume_ulong (consumer_at B p) = (some r, c1)) :
    consume_ulong (consumer_at (B ++ E) p) = (some r, consumer_at (B ++ E) c1.position) := by
  have hsE := hs
  rw [List.length_append] at hs
  have hsB : B.length ≤ PTRDIFF_MAX := by omega
  have hmaxE : (consumer_at (B ++ E) p).size ≤ SIZE_MAX := by
    simp only [consumer_at_size, PTRDIFF_MAX, SIZE_MAX, SIZE_WIDTH] at hsE ⊢
    omega
  rw [ulong_eq _ (nowrap_at B p 9 hp hsB (by norm_num))] at h
  simp only [consumer_at_position, consumer_at_size] at h
  by_cases h1 : p + 1 ≤ B.length
  · have hbyte := byte_append B E p p p (by omega)
    rw [if_pos h1] at h
    by_cases hm1 : (consumer_at B p).byte p = PNE_SMALLULONG
    · rw [if_pos hm1] at h
      by_cases h2 : p + 2 ≤ B.length
      · rw [if_pos h2] at h
        simp only [Prod.mk.injEq, Option.some.injEq] at h
        obtain ⟨rfl, rfl⟩ := h
        rw [ulong_small (consumer_at (B ++ E) p)
          (by simp only [consumer_at_position, consumer_at_size, List.length_append]; omega)
          hmaxE (by rw [consumer_at_position, hbyte]; exact hm1)]
        rw [consumer_at_position, byte_append B E p p (p + 1) (by omega)]
        rfl
      · rw [if_neg h2] at h
        simp at h
    · rw [if_neg hm1] at h
      by_cases hm8 : (consumer_at B p).byte p = PNE_ULONG
      · rw [if_pos hm8] at h
        by_cases h9 : p + 9 ≤ B.length
        · rw [if_pos h9] at h
          simp only [Prod.mk.injEq, Option.some.injEq] at h
          obtain ⟨rfl, rfl⟩ := h
          rw [ulong_full (consumer_at (B ++ E) p)
            (by simp only [consumer_at_position, consumer_at_size, List.length_append]; omega)
            hmaxE (by rw [consumer_at_position, hbyte]; exact hm8)]
          rw [consumer_at_position, be_uint_append B E p p (p + 1) 8 (by omega)]
          rfl
        · rw [if_neg h9] at h
          simp at h
      · rw [if_neg hm8] at h
        by_cases hm0 : (consumer_at B p).byte p = PNE_ULONG0
        · rw [if_pos hm0] at h
          simp only [Prod.mk.injEq, Option.some.injEq] at h
          obtain ⟨rfl, rfl⟩ := h
          rw [ulong_zero (consumer_at (B ++ E) p)
            (by simp only [consumer_at_position, consumer_at_size, List.length_append]; omega)
            hmaxE (by rw [consumer_at_position, hbyte]; exact hm0)]
          rfl
        · rw [if_neg hm0] at h
          simp at h
  · rw [if_neg h1] at h
    simp at h

theorem descriptor_stable (B E : List (Fin 256)) (p : Nat) (hp : p ≤ B.length)
    (hs : (B ++ E).length ≤ PTRDIFF_MAX) (r : Nat) (c1 : pni_consumer_t)
    (h : consume_descriptor (consumer_at B p) = (some r, c1)) :
    consume_descriptor (consumer_at (B ++ E) p)
      = (some r, consumer_at (B ++ E) c1.position) := by
  have hsE := hs
  rw [List.length_append] at hs
  have hsB : B.length ≤ PTRDIFF_MAX := by omega
  have hmaxE : (consumer_at (B ++ E) p).size ≤ SIZE_MAX := by
    simp only [consumer_at_size, PTRDIFF_MAX, SIZE_MAX, SIZE_WIDTH] at hsE ⊢
    omega
  rw [descriptor_eq _ (nowrap_at B p 1 hp hsB (by norm_num))] at h
  simp only [consumer_at_position, consumer_at_size] at h
  by_cases h1 : p + 1 ≤ B.length
  · rw [if_pos h1] at h
    by_cases hm : (consumer_at B p).byte p = PNE_DESCRIPTOR
    · rw [if_pos hm] at h
      rw [descriptor_match (consumer_at (B ++ E) p)
        (by simp only [consumer_at_position, consumer_at_size, List.length_append]; omega)
        hmaxE (by rw [consumer_at_position, byte_append B E p p p (by omega)]; exact hm)]
      exact ulong_stable B E (p + 1) h1 hsE r c1 h
    · rw [if_neg hm] at h
      simp at h
  · rw [if_neg h1] at h
    simp at h

/-- C19. Successful reads are stable under buffer extension.  For a consumer at position
`p` over the buffer `B` and each reader (`pni_consumer_readf8`, `readf16`, `readf32`,
`readf64`, `readf128`, `pni_consumer_read_value_not_described` with any tag,
`consume_expected_ubyte` with any expected byte, `consume_ulong`, `consume_descriptor`): if
the reader succeeds with a result and a final position, then on the consumer at position
`p` over `B ++ E` it succeeds with the same result (for a span: the same offset, length and
bytes) and the same final position. -/
theorem C19_stable_under_extension (B E : List (Fin 256)) (p : Nat) (hp : p ≤ B.length)
    (hs : (B ++ E).length ≤ PTRDIFF_MAX) :
    (∀ r c1, pni_consumer_readf8 (consumer_at B p) = (some r, c1) →
      pni_consumer_readf8 (consumer_at (B ++ E) p)
        = (some r, consumer_at (B ++ E) c1.position)) ∧
    (∀ r c1, pni_consumer_readf16 (consumer_at B p) = (some r, c1) →
      pni_consumer_readf16 (consumer_at (B ++ E) p)
        = (some r, consumer_at (B ++ E) c1.position)) ∧
    (∀ r c1, pni_consumer_readf32 (consumer_at B p) = (some r, c1) →
      pni_consumer_readf32 (consumer_at (B ++ E) p)
        = (some r, consumer_at (B ++ E) c1.position)) ∧
    (∀ r c1, pni_consumer_readf64 (consumer_at B p) = (some r, c1) →
      pni_consumer_readf64 (consumer_at (B ++ E) p)
        = (some r, consumer_at (B ++ E) c1.position)) ∧
    (∀ r c1, pni_consumer_readf128 (consumer_at B p) = (some r, c1) →
      pni_consumer_readf128 (consumer_at (B ++ E) p)
        = (some r, consumer_at (B ++ E) c1.position)) ∧
    (∀ tag v c1, pni_consumer_read_value_not_described (consumer_at B p) tag = (some v, c1) →
      ∃ v2, pni_consumer_read_value_not_described (consumer_at (B ++ E) p) tag
          = (some v2, consumer_at (B ++ E) c1.position) ∧ same_span v v2) ∧
    (∀ expected c1, consume_expected_ubyte (consumer_at B p) expected = (true, c1) →
      consume_expected_ubyte (consumer_at (B ++ E) p) expected
        = (true, consumer_at (B ++ E) c1.position)) ∧
    (∀ r c1, consume_ulong (consumer_at B p) = (some r, c1) →
      consume_ulong (consumer_at (B ++ E) p)
        = (some r, consumer_at (B ++ E) c1.position)) ∧
    (∀ r c1, consume_descriptor (consumer_at B p) = (some r, c1) →
      consume_descriptor (consumer_at (B ++ E) p)
        = (some r, consumer_at (B ++ E) c1.position)) :=
  ⟨readf8_stable B E p hp hs, readf16_stable B E p hp hs, readf32_stable B E p hp hs,
    readf64_stable B E p hp hs, readf128_stable B E p hp hs,
    fun tag => read_value_stable B E p tag hp hs,
    fun expected => expected_ubyte_stable B E p expected hp hs,
    ulong_stable B E p hp hs, descriptor_stable B E p hp hs⟩

/-- C19, at the descriptor `[0x00, 0x53, 0x42]` read from index 1 of `[9, 0x00, 0x53, 0x42]`
and of its extension by `[7, 7]`. -/
theorem C19_stable_under_extension_witness :
    1 ≤ ([9, 0x00, 0x53, 0x42] : List (Fin 256)).length ∧
    (([9, 0x00, 0x53, 0x42] : List (Fin 256)) ++ [7, 7]).length ≤ PTRDIFF_MAX ∧
    consume_descriptor (consumer_at [9, 0x00, 0x53, 0x42] 1)
      = (some 66, consumer_at [9, 0x00, 0x53, 0x42] 4) ∧
    consume_descriptor (consumer_at ([9, 0x00, 0x53, 0x42] ++ [7, 7]) 1)
      = (some 66, consumer_at ([9, 0x00, 0x53, 0x42] ++ [7, 7])
          (consumer_at [9, 0x00, 0x53, 0x42] 4).position) :=
  ⟨by decide, by decide, by decide,
    (C19_stable_under_extension [9, 0x00, 0x53, 0x42] [7, 7] 1 (by decide)
      (by decide)).2.2.2.2.2.2.2.2 66 (consumer_at [9, 0x00, 0x53, 0x42] 4) (by decide)⟩

end Proton
